import Mathlib

/-!
Verification of the geostore spatial-indexing package (geostore.go).

The Go code works on `float64` coordinates, but every arithmetic operation it
performs on box geometry is exact in IEEE double precision: the world extents
(±90, ±180) and all grid corners are dyadic rationals of the form
`45 * m * 2^(-2*(d-1))` with `|45 * m| < 2^25`, divisions are by the power of
two `4.0`, and the multipliers `float64(j)` are in `0..4`.  Every intermediate
value is therefore exactly representable and every comparison coincides with
the comparison of the rational numbers the floats denote.  We consequently
embed the coordinate arithmetic in `ℚ` (`Rat`), which also covers every
`float64` input value (each of which denotes a rational).

Go strings holding geobox hashes are embedded as `List Char`; appending a
one-character code is `++ [c]`, `boxtag[0:len-1]` is `List.dropLast` and the
last character is `List.getLast?`.  Go `error` returns are embedded with
`Except GeoError`; the distinguished constructor `GeoError.indexOutOfRange`
models the Go runtime panic raised by an out-of-range array index (reading
`BOXSIZES` past its last element), and `GeoError.loopLimit` models divergence
of a `for` loop (the cut-off constants are far larger than the iteration
count of any terminating run).
-/

deriving instance DecidableEq for Except

namespace Geostore

/-- World extents and maximum grid depth, from the `const` block. -/
def MAXLAT : ℚ := 90
def MINLAT : ℚ := -90
def MAXLNG : ℚ := 180
def MINLNG : ℚ := -180
def MAXDEPTH : Nat := 10

/-- The 4×4 symbol table `CODES`; `CODES i j` is the Go `CODES[i][j]`.
Rows are latitude bands (south to north), columns longitude bands (west to
east).  Go panics on an index outside `0..3`; all call sites stay in range,
and the junk value `'?'` is never produced. -/
def CODES (i j : Nat) : Char :=
  match i, j with
  | 0, 0 => '0' | 0, 1 => '1' | 0, 2 => '2' | 0, 3 => '3'
  | 1, 0 => '4' | 1, 1 => '5' | 1, 2 => '6' | 1, 3 => '7'
  | 2, 0 => '8' | 2, 1 => '9' | 2, 2 => 'A' | 2, 3 => 'B'
  | 3, 0 => 'C' | 3, 1 => 'D' | 3, 2 => 'E' | 3, 3 => 'F'
  | _, _ => '?'

/-- A latitude/longitude pair (struct `LatLng`). -/
structure LatLng where
  Lat : ℚ
  Lng : ℚ
deriving DecidableEq, Repr

/-- An axis-aligned box (struct `LatLngBounds`). -/
structure LatLngBounds where
  NE : LatLng
  SW : LatLng
deriving DecidableEq, Repr

/-- Size of a geobox at each depth, from the `init()` loop: entry 0 is the
world span, each further entry divides the previous one by `4.0`. -/
def boxSize : Nat → LatLng
  | 0 => { Lat := MAXLAT - MINLAT, Lng := MAXLNG - MINLNG }
  | n + 1 => { Lat := (boxSize n).Lat / 4, Lng := (boxSize n).Lng / 4 }

/-- The Go array `BOXSIZES` of length `MAXDEPTH + 1`; indices `0..10` exist,
any other access is a runtime panic. -/
def BOXSIZES : List LatLng := (List.range (MAXDEPTH + 1)).map boxSize

/-- Method `LatLng.Within`: inclusive containment on all four edges. -/
def Within (p : LatLng) (b : LatLngBounds) : Bool :=
  !(p.Lat < b.SW.Lat || p.Lng < b.SW.Lng || p.Lat > b.NE.Lat || p.Lng > b.NE.Lng)

/-- The errors the package can raise, one constructor per distinct failure
site (the Go code returns `Error{errmsg: ...}` values, plus two non-`error`
behaviours modelled explicitly: index panics and loop divergence). -/
inductive GeoError where
  /-- Raised in `Descend` with message `Point is outside Box`. -/
  | pointOutsideBox
  /-- Raised in `Descend` with message `Could not find matching sub_box for Point in Box`. -/
  | noMatchingSubBox
  /-- Raised in `GetNorthBoxTag`/`GetEastBoxTag` with message `empty tag passed to GetNorthBox()`. -/
  | emptyTag
  /-- An error returned by `strconv.ParseInt` on a non-hexadecimal character. -/
  | parseIntError
  /-- Raised in `GeoBoxTagsFromViewBounds` with message `viewbounds geoboxes at different depths`. -/
  | depthMismatch
  /-- Models the Go runtime panic `index out of range` on an array access. -/
  | indexOutOfRange
  /-- Models divergence of a Go `for` loop (never reached: the cut-off fuel
  exceeds the iteration count of every terminating run). -/
  | loopLimit
deriving DecidableEq, Repr

/-- The `Geohasher` cursor: current hash, current box, target point. -/
structure Geohasher where
  hash : List Char
  Box : LatLngBounds
  Point : LatLng
deriving DecidableEq, Repr

/-- Method `GetDepth`: the current hash length. -/
def GetDepth (g : Geohasher) : Nat := g.hash.length

/-- Spacing `latSpacing` computed inside `Descend`. -/
def latSpacing (b : LatLngBounds) : ℚ := |b.NE.Lat - b.SW.Lat| / 4

/-- Spacing `lngSpacing` computed inside `Descend`. -/
def lngSpacing (b : LatLngBounds) : ℚ := |b.NE.Lng - b.SW.Lng| / 4

/-- The `sub_box` built inside `Descend` for row `i` and column `j`. -/
def subBox (b : LatLngBounds) (i j : Nat) : LatLngBounds :=
  { SW := { Lng := b.SW.Lng + (j : ℚ) * lngSpacing b
          , Lat := b.SW.Lat + (i : ℚ) * latSpacing b }
  , NE := { Lng := b.SW.Lng + ((j : ℚ) + 1) * lngSpacing b
          , Lat := b.SW.Lat + ((i : ℚ) + 1) * latSpacing b } }

/-- The inner `for j` loop of `Descend` over one latitude row: the first
column `j` in `0..3` whose sub-box contains the point. -/
def scanRow (p : LatLng) (b : LatLngBounds) (i : Nat) : Option Nat :=
  if Within p (subBox b i 0) then some 0
  else if Within p (subBox b i 1) then some 1
  else if Within p (subBox b i 2) then some 2
  else if Within p (subBox b i 3) then some 3
  else none

/-- The nested `for i`/`for j` scan of `Descend` with its two `break`s: the
first pair `(i, j)` in row-major order whose sub-box contains the point. -/
def findSubBox (p : LatLng) (b : LatLngBounds) : Option (Nat × Nat) :=
  match scanRow p b 0 with
  | some j => some (0, j)
  | none =>
    match scanRow p b 1 with
    | some j => some (1, j)
    | none =>
      match scanRow p b 2 with
      | some j => some (2, j)
      | none =>
        match scanRow p b 3 with
        | some j => some (3, j)
        | none => none

/-- Method `Geohasher.Descend`: check the point is inside the box, scan the
16 sub-boxes, append the matched cell's code and narrow the box. -/
def Descend (g : Geohasher) : Except GeoError Geohasher :=
  if !(Within g.Point g.Box) then .error .pointOutsideBox
  else
    match findSubBox g.Point g.Box with
    | some (i, j) =>
      .ok { g with hash := g.hash ++ [CODES i j], Box := subBox g.Box i j }
    | none => .error .noMatchingSubBox

/-- A `Locatable` entity: the interface carries a location and a mutable tag
list; `AddGeoBoxTag` appends a tag and `ClearGeoBoxTags` empties the list. -/
structure Entity where
  location : LatLng
  tags : List (List Char)
deriving DecidableEq, Repr

/-- The world box every descent starts from. -/
def worldBox : LatLngBounds :=
  { NE := { Lat := MAXLAT, Lng := MAXLNG }, SW := { Lat := MINLAT, Lng := MINLNG } }

/-- The `for g.GetDepth() < MAXDEPTH` loop of `GenerateGeoBoxTags`, acting on
the entity's tag list; returns the final entity state and the error, if any
(the Go code mutates the entity through the `Locatable` interface and
returns the error).  The loop runs at most `MAXDEPTH` iterations because a
successful `Descend` grows the hash by one character, so with fuel
`MAXDEPTH + 1` the `loopLimit` branch is unreachable. -/
def genLoop : Nat → Entity → Geohasher → Entity × Option GeoError
  | 0, l, _ => (l, some .loopLimit)
  | fuel + 1, l, g =>
    if GetDepth g < MAXDEPTH then
      match Descend g with
      | .error e => (l, some e)
      | .ok g' => genLoop fuel { l with tags := l.tags ++ [g'.hash] } g'
    else (l, none)

/-- Function `GenerateGeoBoxTags`: build a fresh hasher over the world box,
clear the entity's tags, and descend `MAXDEPTH` times recording the hash
after each step. -/
def GenerateGeoBoxTags (l : Entity) : Entity × Option GeoError :=
  let g : Geohasher := { Point := l.location, Box := worldBox, hash := [] }
  genLoop (MAXDEPTH + 1) { l with tags := [] } g

/-- Result of `strconv.ParseInt(boxcode, 16, 0)` on the one-character string
`boxcode`: both lowercase and uppercase hexadecimal digits parse (Go rejects
a `0x` present when the base is given explicitly, which cannot occur in one
character anyway). -/
def parseHexDigit (c : Char) : Option Nat :=
  if '0' ≤ c ∧ c ≤ '9' then some (c.toNat - '0'.toNat)
  else if 'a' ≤ c ∧ c ≤ 'f' then some (c.toNat - 'a'.toNat + 10)
  else if 'A' ≤ c ∧ c ≤ 'F' then some (c.toNat - 'A'.toNat + 10)
  else none

/-- Worker for `GetNorthBoxTag`, acting on the reversed tag so that the Go
recursion on `boxtag[0:len-1]` (the tag without its last character) becomes
structural recursion on the head: the head of the reversed list is the Go
last character, and the tail is the reversed parent tag. -/
def goNorthRev : List Char → Except GeoError (List Char)
  | [] => .error .emptyTag
  | boxcode :: rest =>
    match parseHexDigit boxcode with
    | none => .error .parseIntError
    | some boxint =>
      let boxnorthint := boxint + 4
      if boxnorthint ≥ 16 then
        match goNorthRev rest with
        | .error e => .error e
        | .ok pre =>
          .ok (CODES ((boxnorthint - 16) / 4) ((boxnorthint - 16) % 4) :: pre)
      else
        .ok (CODES (boxnorthint / 4) (boxnorthint % 4) :: rest)

/-- Function `GetNorthBoxTag`: split the tag into `boxtag[0:len-1]` and its
last character, parse the character, add 4 (move one latitude row up), and
on overflow wrap by 16 and carry into the parent tag recursively. -/
def GetNorthBoxTag (boxtag : List Char) : Except GeoError (List Char) :=
  match goNorthRev boxtag.reverse with
  | .error e => .error e
  | .ok r => .ok r.reverse

/-- Worker for `GetEastBoxTag` on the reversed tag, as for `goNorthRev`. -/
def goEastRev : List Char → Except GeoError (List Char)
  | [] => .error .emptyTag
  | boxcode :: rest =>
    match parseHexDigit boxcode with
    | none => .error .parseIntError
    | some boxint =>
      let boxeastint := boxint + 1
      if boxint % 4 + 1 ≥ 4 then
        match goEastRev rest with
        | .error e => .error e
        | .ok pre =>
          .ok (CODES ((boxeastint - 4) / 4) ((boxeastint - 4) % 4) :: pre)
      else
        .ok (CODES (boxeastint / 4) (boxeastint % 4) :: rest)

/-- Function `GetEastBoxTag`: split the tag, parse the last character, add 1
(move one longitude column east); when the column was already the rightmost
one, wrap the column by subtracting 4 and carry into the parent tag. -/
def GetEastBoxTag (boxtag : List Char) : Except GeoError (List Char) :=
  match goEastRev boxtag.reverse with
  | .error e => .error e
  | .ok r => .ok r.reverse

/-- The condition of the descent loop in `GeoBoxTagsFromViewBounds`.  Go
evaluates `BOXSIZES[depth+1]` before the `depth < MAXDEPTH` conjunct, so an
index beyond the end of `BOXSIZES` is a runtime panic even when the depth
guard would be false. -/
def vbCond (viewbounds : LatLngBounds) (depth : Nat) : Except GeoError Bool :=
  match BOXSIZES.get? (depth + 1) with
  | none => .error .indexOutOfRange
  | some s =>
    .ok (decide (|viewbounds.NE.Lat - viewbounds.SW.Lat| < s.Lat) &&
         decide (|viewbounds.NE.Lng - viewbounds.SW.Lng| < s.Lng) &&
         decide (depth < MAXDEPTH))

/-- The lock-step descent loop of `GeoBoxTagsFromViewBounds` on the four
corner hashers.  The loop runs at most `MAXDEPTH` iterations before the
condition either turns false or panics, so the fuel never runs out. -/
def vbLoop : Nat → LatLngBounds → Geohasher → Geohasher → Geohasher → Geohasher →
    Except GeoError (Geohasher × Geohasher × Geohasher × Geohasher)
  | 0, _, _, _, _, _ => .error .loopLimit
  | fuel + 1, viewbounds, sw, ne, se, nw =>
    match vbCond viewbounds (GetDepth sw) with
    | .error e => .error e
    | .ok false => .ok (sw, ne, se, nw)
    | .ok true =>
      match Descend sw with
      | .error e => .error e
      | .ok sw' =>
        match Descend ne with
        | .error e => .error e
        | .ok ne' =>
          match Descend se with
          | .error e => .error e
          | .ok se' =>
            match Descend nw with
            | .error e => .error e
            | .ok nw' => vbLoop fuel viewbounds sw' ne' se' nw'

/-- The inner `for cursor != endtop` loop: collect the cursor tag and step
north until the cursor reaches `endtop`. -/
def northRun : Nat → List Char → List Char → List (List Char) →
    Except GeoError (List (List Char))
  | 0, _, _, _ => .error .loopLimit
  | fuel + 1, cursor, endtop, acc =>
    if cursor = endtop then .ok acc
    else
      match GetNorthBoxTag cursor with
      | .error e => .error e
      | .ok cursor' => northRun fuel cursor' endtop (acc ++ [cursor])

/-- The outer `for botcursor != endbot` loop: run one column north, then
step both column cursors east. -/
def eastWalk : Nat → List Char → List Char → List Char → List (List Char) →
    Except GeoError (List (List Char))
  | 0, _, _, _, _ => .error .loopLimit
  | fuel + 1, botcursor, topcursor, endbot, acc =>
    if botcursor = endbot then .ok acc
    else
      match GetNorthBoxTag topcursor with
      | .error e => .error e
      | .ok endtop =>
        match northRun 262146 botcursor endtop acc with
        | .error e => .error e
        | .ok acc' =>
          match GetEastBoxTag botcursor with
          | .error e => .error e
          | .ok botcursor' =>
            match GetEastBoxTag topcursor with
            | .error e => .error e
            | .ok topcursor' => eastWalk fuel botcursor' topcursor' endbot acc'

/-- Function `GeoBoxTagsFromViewBounds`: descend the four corner hashers in
lock-step, return the single common tag when the SW and NE corners coincide,
otherwise walk the rectangle of tags between the corners.  Successful runs
reach depth at most 9 (an evaluation of the loop condition at depth 10 reads
`BOXSIZES[11]` and panics), so row and column indices stay below
`4^9 = 262144` and the loop fuels of `262146` are never exhausted on a run
the Go code completes. -/
def GeoBoxTagsFromViewBounds (viewbounds : LatLngBounds) :
    Except GeoError (List (List Char)) :=
  match vbLoop (MAXDEPTH + 2) viewbounds
      { Point := viewbounds.SW, Box := worldBox, hash := [] }
      { Point := viewbounds.NE, Box := worldBox, hash := [] }
      { Point := { Lat := viewbounds.SW.Lat, Lng := viewbounds.NE.Lng }
      , Box := worldBox, hash := [] }
      { Point := { Lat := viewbounds.NE.Lat, Lng := viewbounds.SW.Lng }
      , Box := worldBox, hash := [] } with
  | .error e => .error e
  | .ok (swhasher, nehasher, sehasher, nwhasher) =>
    if swhasher.hash = nehasher.hash then .ok [swhasher.hash]
    else
      if swhasher.hash.length ≠ nehasher.hash.length ∨
          swhasher.hash.length ≠ sehasher.hash.length ∨
          swhasher.hash.length ≠ nwhasher.hash.length then
        .error .depthMismatch
      else
        match GetEastBoxTag sehasher.hash with
        | .error e => .error e
        | .ok endbot => eastWalk 262146 swhasher.hash nwhasher.hash endbot []

/-- The sixteen symbols a cell tag may use (spec data model: the alphabet
`0123456789ABCDEF`, uppercase, one character per level, exactly the
characters `CODES` produces). -/
def hexChars : List Char :=
  ['0', '1', '2', '3', '4', '5', '6', '7', '8', '9', 'A', 'B', 'C', 'D', 'E', 'F']

/-- A well-formed cell tag: every character drawn from the 16-symbol
alphabet. -/
def ValidTag (t : List Char) : Prop := ∀ c ∈ t, c ∈ hexChars

instance (t : List Char) : Decidable (ValidTag t) := by
  unfold ValidTag
  infer_instance

/-- Numeric value of a tag character (`0` for a character outside the
alphabet; only used beneath a `ValidTag` hypothesis). -/
def hexDigit (c : Char) : Nat := (parseHexDigit c).getD 0

/-- Row value of a reversed tag, little-endian: the head is the deepest
(least significant) character and contributes its row digit `value / 4`. -/
def revRow : List Char → Nat
  | [] => 0
  | c :: rest => hexDigit c / 4 + 4 * revRow rest

/-- Column value of a reversed tag, little-endian, from the column digits
`value % 4`. -/
def revCol : List Char → Nat
  | [] => 0
  | c :: rest => hexDigit c % 4 + 4 * revCol rest

/-- Row number (latitude index, 0 at the south edge) of the cell a tag
names, at the tag's depth: each character contributes its row digit
`value / 4` in base four, the first character being most significant. -/
def tagRow (t : List Char) : Nat := revRow t.reverse

/-- Column number (longitude index, 0 at the west edge) of the cell a tag
names: each character contributes its column digit `value % 4` in base
four. -/
def tagCol (t : List Char) : Nat := revCol t.reverse

/-- The rectangle a tag names: starting from the world box, step into the
sub-box selected by each successive character (the same subdivision
`Descend` uses). -/
def cellBox (t : List Char) : LatLngBounds :=
  t.foldl (fun b c => subBox b (hexDigit c / 4) (hexDigit c % 4)) worldBox

/-- Two boxes intersect when some point lies (inclusively) in both. -/
def Intersects (a b : LatLngBounds) : Prop :=
  ∃ p : LatLng, Within p a = true ∧ Within p b = true

/-! ### Basic facts about containment and the sub-box scan -/

theorem within_iff {p : LatLng} {b : LatLngBounds} :
    Within p b = true ↔
      b.SW.Lat ≤ p.Lat ∧ b.SW.Lng ≤ p.Lng ∧ p.Lat ≤ b.NE.Lat ∧ p.Lng ≤ b.NE.Lng := by
  simp only [Within, Bool.not_eq_true', Bool.or_eq_false_iff, decide_eq_false_iff_not, not_lt]
  tauto

theorem latSpacing_nonneg (b : LatLngBounds) : 0 ≤ latSpacing b := by
  unfold latSpacing
  positivity

theorem lngSpacing_nonneg (b : LatLngBounds) : 0 ≤ lngSpacing b := by
  unfold lngSpacing
  positivity

theorem latSpacing_of_le {b : LatLngBounds} (h : b.SW.Lat ≤ b.NE.Lat) :
    latSpacing b = (b.NE.Lat - b.SW.Lat) / 4 := by
  unfold latSpacing
  rw [abs_of_nonneg (by linarith)]

theorem lngSpacing_of_le {b : LatLngBounds} (h : b.SW.Lng ≤ b.NE.Lng) :
    lngSpacing b = (b.NE.Lng - b.SW.Lng) / 4 := by
  unfold lngSpacing
  rw [abs_of_nonneg (by linarith)]

theorem within_subBox_iff {p : LatLng} {b : LatLngBounds} {i j : Nat} :
    Within p (subBox b i j) = true ↔
      (b.SW.Lat + (i : ℚ) * latSpacing b ≤ p.Lat ∧
        p.Lat ≤ b.SW.Lat + ((i : ℚ) + 1) * latSpacing b) ∧
      (b.SW.Lng + (j : ℚ) * lngSpacing b ≤ p.Lng ∧
        p.Lng ≤ b.SW.Lng + ((j : ℚ) + 1) * lngSpacing b) := by
  rw [within_iff]
  simp only [subBox]
  tauto

/-- One covering band always exists: a value between `a` and `a + 4*t` lies
in one of the four bands `[a + i*t, a + (i+1)*t]`. -/
theorem exists_band (a x t : ℚ) (ht : 0 ≤ t) (h1 : a ≤ x) (h2 : x ≤ a + 4 * t) :
    ∃ i : Nat, i < 4 ∧ a + (i : ℚ) * t ≤ x ∧ x ≤ a + ((i : ℚ) + 1) * t := by
  rcases le_or_lt x (a + t) with h | h
  · exact ⟨0, by norm_num, by push_cast; linarith, by push_cast; linarith⟩
  rcases le_or_lt x (a + 2 * t) with h' | h'
  · exact ⟨1, by norm_num, by push_cast; linarith, by push_cast; linarith⟩
  rcases le_or_lt x (a + 3 * t) with h'' | h''
  · exact ⟨2, by norm_num, by push_cast; linarith, by push_cast; linarith⟩
  · exact ⟨3, by norm_num, by push_cast; linarith, by push_cast; linarith⟩

theorem scanRow_eq_some {p : LatLng} {b : LatLngBounds} {i j : Nat}
    (h : scanRow p b i = some j) :
    j < 4 ∧ Within p (subBox b i j) = true ∧
      ∀ j' < j, Within p (subBox b i j') = false := by
  unfold scanRow at h
  split_ifs at h with h0 h1 h2 h3 <;> cases h
  · exact ⟨by norm_num, h0, by omega⟩
  · refine ⟨by norm_num, h1, ?_⟩
    intro j' hj'
    have : j' = 0 := by omega
    subst this
    simpa using h0
  · refine ⟨by norm_num, h2, ?_⟩
    intro j' hj'
    interval_cases j'
    · simpa using h0
    · simpa using h1
  · refine ⟨by norm_num, h3, ?_⟩
    intro j' hj'
    interval_cases j'
    · simpa using h0
    · simpa using h1
    · simpa using h2

theorem scanRow_eq_none {p : LatLng} {b : LatLngBounds} {i : Nat}
    (h : scanRow p b i = none) :
    ∀ j < 4, Within p (subBox b i j) = false := by
  unfold scanRow at h
  split_ifs at h with h0 h1 h2 h3
  intro j hj
  interval_cases j
  · simpa using h0
  · simpa using h1
  · simpa using h2
  · simpa using h3

theorem scanRow_ne_none {p : LatLng} {b : LatLngBounds} {i j : Nat} (hj : j < 4)
    (hw : Within p (subBox b i j) = true) : scanRow p b i ≠ none := by
  intro h
  have := scanRow_eq_none h j hj
  rw [hw] at this
  cases this

theorem findSubBox_eq_some {p : LatLng} {b : LatLngBounds} {i j : Nat}
    (h : findSubBox p b = some (i, j)) :
    i < 4 ∧ scanRow p b i = some j ∧ ∀ i' < i, scanRow p b i' = none := by
  unfold findSubBox at h
  split at h
  case _ j0 h0 =>
    cases h
    exact ⟨by norm_num, h0, by omega⟩
  case _ h0 =>
    split at h
    case _ j1 h1 =>
      cases h
      refine ⟨by norm_num, h1, ?_⟩
      intro i' hi'
      have : i' = 0 := by omega
      subst this
      exact h0
    case _ h1 =>
      split at h
      case _ j2 h2 =>
        cases h
        refine ⟨by norm_num, h2, ?_⟩
        intro i' hi'
        interval_cases i' <;> assumption
      case _ h2 =>
        split at h
        case _ j3 h3 =>
          cases h
          refine ⟨by norm_num, h3, ?_⟩
          intro i' hi'
          interval_cases i' <;> assumption
        case _ h3 => cases h

theorem findSubBox_eq_none {p : LatLng} {b : LatLngBounds}
    (h : findSubBox p b = none) : ∀ i < 4, scanRow p b i = none := by
  unfold findSubBox at h
  split at h
  · cases h
  split at h
  · cases h
  split at h
  · cases h
  split at h
  · cases h
  intro i hi
  interval_cases i <;> assumption

/-- Inside the parent box, some sub-box always contains the point: the 16
sub-boxes cover the parent (inclusive boundaries). -/
theorem findSubBox_of_within {p : LatLng} {b : LatLngBounds}
    (hw : Within p b = true) : ∃ ij, findSubBox p b = some ij := by
  rw [within_iff] at hw
  obtain ⟨hlat1, hlng1, hlat2, hlng2⟩ := hw
  have hlat : b.SW.Lat ≤ b.NE.Lat := le_trans hlat1 hlat2
  have hlng : b.SW.Lng ≤ b.NE.Lng := le_trans hlng1 hlng2
  obtain ⟨i, hi4, hi1, hi2⟩ :=
    exists_band b.SW.Lat p.Lat (latSpacing b) (latSpacing_nonneg b) hlat1
      (by rw [latSpacing_of_le hlat]; linarith)
  obtain ⟨j, hj4, hj1, hj2⟩ :=
    exists_band b.SW.Lng p.Lng (lngSpacing b) (lngSpacing_nonneg b) hlng1
      (by rw [lngSpacing_of_le hlng]; linarith)
  have hwsub : Within p (subBox b i j) = true :=
    within_subBox_iff.mpr ⟨⟨hi1, hi2⟩, ⟨hj1, hj2⟩⟩
  match hf : findSubBox p b with
  | some ij => exact ⟨ij, rfl⟩
  | none =>
    have := scanRow_eq_none (findSubBox_eq_none hf i hi4) j hj4
    rw [hwsub] at this
    cases this

theorem descend_ok_elim {g g' : Geohasher} (h : Descend g = .ok g') :
    Within g.Point g.Box = true ∧
      ∃ i j, findSubBox g.Point g.Box = some (i, j) ∧
        g'.hash = g.hash ++ [CODES i j] ∧ g'.Box = subBox g.Box i j ∧
        g'.Point = g.Point := by
  unfold Descend at h
  split at h
  case _ hw => cases h
  case _ hw =>
    have hw' : Within g.Point g.Box = true := by
      simpa using hw
    refine ⟨hw', ?_⟩
    split at h
    case _ i j hf =>
      cases h
      exact ⟨i, j, hf, rfl, rfl, rfl⟩
    case _ => cases h

/-- Inside the current box, `Descend` always succeeds. -/
theorem descend_total {g : Geohasher} (hw : Within g.Point g.Box = true) :
    ∃ g', Descend g = .ok g' := by
  obtain ⟨⟨i, j⟩, hf⟩ := findSubBox_of_within hw
  refine ⟨{ g with hash := g.hash ++ [CODES i j], Box := subBox g.Box i j }, ?_⟩
  unfold Descend
  rw [if_neg (by simp [hw]), hf]

/-- C6: on each successful `Descend`, the Geocoder scans the 16 sub-cells of
the current box in row-major order (latitude bands south-to-north outer,
longitude bands west-to-east inner) and selects the first sub-cell
containing the target point under inclusive containment — so no sub-cell
earlier in row-major order contains the point, and in particular a point on
a shared edge goes to the lower latitude band and lower longitude band
(no lower row in the same column, and no lower column in the same row,
contains it).  The selected cell's one-character code `CODES i j` is
appended to the hash and the bounds narrow to that sub-cell. -/
theorem c6_descend_scan_order {g g' : Geohasher} (h : Descend g = .ok g') :
    ∃ i j : Nat, i < 4 ∧ j < 4 ∧
      Within g.Point (subBox g.Box i j) = true ∧
      (∀ i' j' : Nat, i' < 4 → j' < 4 → 4 * i' + j' < 4 * i + j →
        Within g.Point (subBox g.Box i' j') = false) ∧
      (∀ i' < i, Within g.Point (subBox g.Box i' j) = false) ∧
      (∀ j' < j, Within g.Point (subBox g.Box i j') = false) ∧
      g'.hash = g.hash ++ [CODES i j] ∧ g'.Box = subBox g.Box i j ∧
      g'.Point = g.Point := by
  obtain ⟨hw, i, j, hf, hhash, hbox, hpt⟩ := descend_ok_elim h
  obtain ⟨hi4, hsome, hnone⟩ := findSubBox_eq_some hf
  obtain ⟨hj4, hwin, hjmin⟩ := scanRow_eq_some hsome
  refine ⟨i, j, hi4, hj4, hwin, ?_, ?_, hjmin, hhash, hbox, hpt⟩
  · intro i' j' hi4' hj4' hlt
    rcases lt_trichotomy i' i with hc | hc | hc
    · exact scanRow_eq_none (hnone i' hc) j' hj4'
    · subst hc
      exact hjmin j' (by omega)
    · omega
  · intro i' hi'
    exact scanRow_eq_none (hnone i' hi') j hj4

/-- Witness for C6 at a concrete input: the point (0, 0) sits on shared
edges of the world grid and is assigned the cell with code `5` (row 1,
column 1 — the lower bands). -/
theorem c6_descend_scan_order_witness :
    (Descend { hash := [], Box := worldBox, Point := { Lat := 0, Lng := 0 } } =
      .ok { hash := ['5'], Box := subBox worldBox 1 1
          , Point := { Lat := 0, Lng := 0 } }) ∧
    (∃ i j : Nat, i < 4 ∧ j < 4 ∧
      Within ({ Lat := 0, Lng := 0 } : LatLng) (subBox worldBox i j) = true ∧
      (∀ i' j' : Nat, i' < 4 → j' < 4 → 4 * i' + j' < 4 * i + j →
        Within ({ Lat := 0, Lng := 0 } : LatLng) (subBox worldBox i' j') = false) ∧
      (∀ i' < i, Within ({ Lat := 0, Lng := 0 } : LatLng) (subBox worldBox i' j) = false) ∧
      (∀ j' < j, Within ({ Lat := 0, Lng := 0 } : LatLng) (subBox worldBox i j') = false) ∧
      ({ hash := ['5'], Box := subBox worldBox 1 1
       , Point := { Lat := 0, Lng := 0 } } : Geohasher).hash = [] ++ [CODES i j] ∧
      ({ hash := ['5'], Box := subBox worldBox 1 1
       , Point := { Lat := 0, Lng := 0 } } : Geohasher).Box = subBox worldBox i j ∧
      ({ hash := ['5'], Box := subBox worldBox 1 1
       , Point := { Lat := 0, Lng := 0 } } : Geohasher).Point = { Lat := 0, Lng := 0 }) := by
  have h : Descend { hash := [], Box := worldBox, Point := { Lat := 0, Lng := 0 } } =
      .ok { hash := ['5'], Box := subBox worldBox 1 1
          , Point := { Lat := 0, Lng := 0 } } := by
    with_unfolding_all rfl
  exact ⟨h, c6_descend_scan_order h⟩

/-- C7: whenever the target point lies within the current box under
inclusive containment, `Descend` succeeds — in particular it never returns
the no-matching-cell error, whose branch is unreachable under this
precondition. -/
theorem c7_no_matching_cell_unreachable {g : Geohasher}
    (hw : Within g.Point g.Box = true) :
    (∃ g', Descend g = .ok g') ∧
      Descend g ≠ .error .noMatchingSubBox := by
  obtain ⟨g', h⟩ := descend_total hw
  refine ⟨⟨g', h⟩, ?_⟩
  rw [h]
  simp

/-- Witness for C7 at a concrete input. -/
theorem c7_no_matching_cell_unreachable_witness :
    (Within ({ Lat := 37781/1000, Lng := -1224113/10000 } : LatLng) worldBox = true) ∧
    ((∃ g', Descend { hash := [], Box := worldBox
                    , Point := { Lat := 37781/1000, Lng := -1224113/10000 } } = .ok g') ∧
      Descend { hash := [], Box := worldBox
              , Point := { Lat := 37781/1000, Lng := -1224113/10000 } } ≠
        .error .noMatchingSubBox) :=
  ⟨by with_unfolding_all rfl, c7_no_matching_cell_unreachable (by with_unfolding_all rfl)⟩

/-- C10: crossing the world edge at the top level is an error, not a
wraparound: `GetNorthBoxTag` on each single-character tag of the top row and
`GetEastBoxTag` on each single-character tag of the rightmost column carry
into the empty parent tag and return the empty-tag error. -/
theorem c10_world_edge_errors :
    GetNorthBoxTag ['C'] = .error .emptyTag ∧
    GetNorthBoxTag ['D'] = .error .emptyTag ∧
    GetNorthBoxTag ['E'] = .error .emptyTag ∧
    GetNorthBoxTag ['F'] = .error .emptyTag ∧
    GetEastBoxTag ['3'] = .error .emptyTag ∧
    GetEastBoxTag ['7'] = .error .emptyTag ∧
    GetEastBoxTag ['B'] = .error .emptyTag ∧
    GetEastBoxTag ['F'] = .error .emptyTag := by
  decide

/-- C2 (code bug): on a degenerate viewbounds the lock-step descent reaches
depth 10, and the next evaluation of the loop condition reads
`BOXSIZES[10 + 1]` — one past the end of the 11-entry table, a Go runtime
index-out-of-range panic — because the condition indexes `BOXSIZES` before
testing `depth < MAXDEPTH`. -/
theorem c2_boxsizes_read_out_of_range :
    GeoBoxTagsFromViewBounds
      { NE := { Lat := 0, Lng := 0 }, SW := { Lat := 0, Lng := 0 } } =
      .error .indexOutOfRange := by
  with_unfolding_all rfl

set_option maxHeartbeats 3200000 in
/-- C3 (code bug): for the documented example point, the degenerate bounds
whose corners both equal the point make `GeoBoxTagsFromViewBounds` panic
(out-of-range `BOXSIZES` read at depth 10) instead of returning the single
full-depth tag — even though `GenerateGeoBoxTags` produces that tag
(`8E64BF8FAB`) as its tenth entry. -/
theorem c3_degenerate_bounds_panic :
    GeoBoxTagsFromViewBounds
      { NE := { Lat := 37781/1000, Lng := -1224113/10000 }
      , SW := { Lat := 37781/1000, Lng := -1224113/10000 } } =
        .error .indexOutOfRange ∧
    (GenerateGeoBoxTags
      { location := { Lat := 37781/1000, Lng := -1224113/10000 }, tags := [] }).1.tags.getD 9 [] =
      ['8', 'E', '6', '4', 'B', 'F', '8', 'F', 'A', 'B'] := by
  constructor
  · with_unfolding_all rfl
  · with_unfolding_all rfl

/-- C4 (code bug): over the whole world the descent loop exits immediately
at depth 0, the SW and NE hashes are both empty and equal, and the function
returns the single empty tag — not the 16 depth-1 tags. -/
theorem c4_whole_world_single_empty_tag :
    GeoBoxTagsFromViewBounds
      { NE := { Lat := 90, Lng := 180 }, SW := { Lat := -90, Lng := -180 } } =
      .ok [[]] := by
  with_unfolding_all rfl

/-! ### The tag generator: chains of one-character extensions -/

/-- Each tag in the list extends the previous one (starting from `h`) by
exactly one character. -/
def chainFrom : List Char → List (List Char) → Prop
  | _, [] => True
  | h, t :: rest => (∃ c, t = h ++ [c]) ∧ chainFrom t rest

theorem chainFrom_getD_length :
    ∀ {h : List Char} {chain : List (List Char)}, chainFrom h chain →
      ∀ i < chain.length, (chain.getD i []).length = h.length + i + 1 := by
  intro h chain
  induction chain generalizing h with
  | nil => intro _ i hi; simp at hi
  | cons t rest ih =>
    intro hc i hi
    obtain ⟨⟨c, ht⟩, hrest⟩ := hc
    match i with
    | 0 =>
      simp [ht]
    | i + 1 =>
      have := ih hrest i (by simpa using hi)
      simp only [List.getD_cons_succ, this, ht]
      simp
      omega

theorem chainFrom_getD_succ :
    ∀ {h : List Char} {chain : List (List Char)}, chainFrom h chain →
      ∀ i, i + 1 < chain.length →
        ∃ c, chain.getD (i + 1) [] = chain.getD i [] ++ [c] := by
  intro h chain
  induction chain generalizing h with
  | nil => intro _ i hi; simp at hi
  | cons t rest ih =>
    intro hc i hi
    obtain ⟨⟨c, ht⟩, hrest⟩ := hc
    match i with
    | 0 =>
      match rest, hrest with
      | t' :: rest', ⟨⟨c', ht'⟩, _⟩ => exact ⟨c', by simp [ht']⟩
    | i + 1 =>
      have := ih hrest i (by simpa using hi)
      simpa using this

theorem descend_ok_within {g g' : Geohasher} (h : Descend g = .ok g') :
    Within g'.Point g'.Box = true := by
  obtain ⟨hw, i, j, hf, hhash, hbox, hpt⟩ := descend_ok_elim h
  obtain ⟨_, hsome, _⟩ := findSubBox_eq_some hf
  obtain ⟨_, hwin, _⟩ := scanRow_eq_some hsome
  rw [hbox, hpt]
  exact hwin

/-- When the point stays inside the box, the generation loop descends all
the way to depth `MAXDEPTH`, appending one chain of extending tags. -/
theorem genLoop_ok :
    ∀ (n : Nat) (l : Entity) (g : Geohasher),
      GetDepth g + n = MAXDEPTH → Within g.Point g.Box = true →
      ∃ l', genLoop (n + 1) l g = (l', none) ∧ l'.location = l.location ∧
        ∃ chain, l'.tags = l.tags ++ chain ∧ chain.length = n ∧
          chainFrom g.hash chain := by
  intro n
  induction n with
  | zero =>
    intro l g hd _
    refine ⟨l, ?_, rfl, [], by simp, rfl, trivial⟩
    simp only [genLoop]
    rw [if_neg (by omega)]
  | succ n ih =>
    intro l g hd hw
    obtain ⟨g', hg'⟩ := descend_total hw
    have hlen := descend_ok_elim hg'
    obtain ⟨_, i, j, _, hhash, _, _⟩ := hlen
    have hdep : GetDepth g' = GetDepth g + 1 := by
      simp [GetDepth, hhash]
    obtain ⟨l', hrun, hloc, chain, htags, hclen, hchain⟩ :=
      ih { l with tags := l.tags ++ [g'.hash] } g' (by omega)
        (descend_ok_within hg')
    refine ⟨l', ?_, hloc, g'.hash :: chain, ?_, by simp [hclen], ?_⟩
    · simp only [genLoop]
      rw [if_pos (by simp only [GetDepth] at hd ⊢; omega), hg']
      exact hrun
    · simp only at htags
      rw [htags]
      simp
    · exact ⟨⟨CODES i j, hhash⟩, hchain⟩

/-- On an error, the generation loop leaves the entity holding the tags it
attached before the failure — a chain extending the initial hash, still
short of the full depth. -/
theorem genLoop_err :
    ∀ (fuel : Nat) (l : Entity) (g : Geohasher) (l' : Entity) (e : GeoError),
      genLoop fuel l g = (l', some e) → GetDepth g ≤ MAXDEPTH →
      MAXDEPTH < GetDepth g + fuel →
      ∃ chain, l'.tags = l.tags ++ chain ∧ chainFrom g.hash chain ∧
        GetDepth g + chain.length < MAXDEPTH := by
  intro fuel
  induction fuel with
  | zero =>
    intro l g l' e _ hle hlt
    omega
  | succ fuel ih =>
    intro l g l' e h hle hlt
    simp only [genLoop] at h
    by_cases hg : GetDepth g < MAXDEPTH
    · rw [if_pos hg] at h
      match hd : Descend g with
      | .error e' =>
        rw [hd] at h
        cases h
        exact ⟨[], by simp, trivial, by simpa using hg⟩
      | .ok g' =>
        rw [hd] at h
        obtain ⟨_, i, j, _, hhash, _, _⟩ := descend_ok_elim hd
        have hdep : GetDepth g' = GetDepth g + 1 := by
          simp [GetDepth, hhash]
        obtain ⟨chain, htags, hchain, hbound⟩ :=
          ih { l with tags := l.tags ++ [g'.hash] } g' l' e h (by omega) (by omega)
        refine ⟨g'.hash :: chain, ?_, ⟨⟨CODES i j, hhash⟩, hchain⟩, ?_⟩
        · simp only at htags
          rw [htags]
          simp
        · simp only [List.length_cons]
          omega
    · rw [if_neg hg] at h
      cases h

/-- C1: for every point with latitude in [-90, 90] and longitude in
[-180, 180], `GenerateGeoBoxTags` succeeds and attaches exactly 10 tags,
where each tag extends the previous one by exactly one character (so
`tag i` is a strict one-character prefix of `tag (i+1)` for `i` in 0..8)
and the tenth tag has length 10. -/
theorem c1_generate_tags_ten_extending (l : Entity)
    (hlat1 : -90 ≤ l.location.Lat) (hlat2 : l.location.Lat ≤ 90)
    (hlng1 : -180 ≤ l.location.Lng) (hlng2 : l.location.Lng ≤ 180) :
    ∃ l', GenerateGeoBoxTags l = (l', none) ∧ l'.tags.length = 10 ∧
      (∀ i < 9, ∃ c, l'.tags.getD (i + 1) [] = l'.tags.getD i [] ++ [c]) ∧
      (l'.tags.getD 9 []).length = 10 := by
  have hM : MAXDEPTH = 10 := rfl
  have hw : Within l.location worldBox = true := by
    rw [within_iff]
    refine ⟨?_, ?_, ?_, ?_⟩ <;>
      simp only [worldBox, MINLAT, MINLNG, MAXLAT, MAXLNG] <;> assumption
  obtain ⟨l', hrun, hloc, chain, htags, hclen, hchain⟩ :=
    genLoop_ok MAXDEPTH { l with tags := [] }
      { Point := l.location, Box := worldBox, hash := [] } (by simp [GetDepth]) hw
  refine ⟨l', hrun, ?_, ?_, ?_⟩
  · simp only at htags
    simp [htags, hclen, MAXDEPTH]
  · intro i hi
    have := chainFrom_getD_succ hchain i (by omega)
    simp only at htags
    simpa [htags] using this
  · have := chainFrom_getD_length hchain 9 (by omega)
    simp only at htags
    simpa [htags] using this

/-- Witness for C1 at the concrete point (0, 0) with a non-empty prior tag
set. -/
theorem c1_generate_tags_ten_extending_witness :
    ((-90 : ℚ) ≤ 0 ∧ (0 : ℚ) ≤ 90 ∧ (-180 : ℚ) ≤ 0 ∧ (0 : ℚ) ≤ 180) ∧
    (∃ l', GenerateGeoBoxTags
        { location := { Lat := 0, Lng := 0 }, tags := [['X']] } = (l', none) ∧
      l'.tags.length = 10 ∧
      (∀ i < 9, ∃ c, l'.tags.getD (i + 1) [] = l'.tags.getD i [] ++ [c]) ∧
      (l'.tags.getD 9 []).length = 10) :=
  ⟨⟨by norm_num, by norm_num, by norm_num, by norm_num⟩,
    c1_generate_tags_ten_extending
      { location := { Lat := 0, Lng := 0 }, tags := [['X']] }
      (by norm_num) (by norm_num) (by norm_num) (by norm_num)⟩

/-- C9 counterexample: tag generation is not atomic.  For an entity whose
location lies outside the world, `GenerateGeoBoxTags` returns an error, yet
the entity's tag set has been cleared — it is observably changed from the
non-empty tag set it held before the call. -/
theorem c9_error_mutates_tags_counterexample :
    (GenerateGeoBoxTags { location := { Lat := 100, Lng := 0 }, tags := [['Z']] } =
      ({ location := { Lat := 100, Lng := 0 }, tags := [] }, some .pointOutsideBox)) ∧
    (GenerateGeoBoxTags
        { location := { Lat := 100, Lng := 0 }, tags := [['Z']] }).1.tags ≠
      ({ location := { Lat := 100, Lng := 0 }, tags := [['Z']] } : Entity).tags := by
  have h : GenerateGeoBoxTags { location := { Lat := 100, Lng := 0 }, tags := [['Z']] } =
      ({ location := { Lat := 100, Lng := 0 }, tags := [] }, some .pointOutsideBox) := by
    with_unfolding_all rfl
  refine ⟨h, ?_⟩
  rw [h]
  simp

/-- C9 (amended): tag generation has no partial-success *reporting* but it
does mutate: the entity's tags are cleared at the start of the call, so
whenever `GenerateGeoBoxTags` returns an error the entity is left holding
exactly the tags attached by the successful descents before the failure —
fewer than 10 tags, the tag at index `i` having length `i + 1` — rather
than its tag set from before the call. -/
theorem c9_amended_error_leaves_partial_fresh_tags
    (l l' : Entity) (e : GeoError) (h : GenerateGeoBoxTags l = (l', some e)) :
    l'.tags.length < MAXDEPTH ∧
      ∀ i < l'.tags.length, (l'.tags.getD i []).length = i + 1 := by
  obtain ⟨chain, htags, hchain, hbound⟩ :=
    genLoop_err (MAXDEPTH + 1) { l with tags := [] }
      { Point := l.location, Box := worldBox, hash := [] } l' e h
      (by simp [GetDepth, MAXDEPTH]) (by simp [GetDepth])
  simp only [GetDepth, List.length_nil] at hbound
  constructor
  · simp [htags]
    omega
  · intro i hi
    have := chainFrom_getD_length hchain i (by simp [htags] at hi; simpa using hi)
    simpa [htags] using this

/-- Witness for the amended C9 at a concrete out-of-world entity. -/
theorem c9_amended_witness :
    (GenerateGeoBoxTags { location := { Lat := 100, Lng := 5 }, tags := [['Q']] } =
      ({ location := { Lat := 100, Lng := 5 }, tags := [] }, some .pointOutsideBox)) ∧
    (({ location := { Lat := 100, Lng := 5 }, tags := [] } : Entity).tags.length < MAXDEPTH ∧
      ∀ i < ({ location := { Lat := 100, Lng := 5 }, tags := [] } : Entity).tags.length,
        (({ location := { Lat := 100, Lng := 5 }, tags := [] } : Entity).tags.getD i []).length =
          i + 1) := by
  have h : GenerateGeoBoxTags { location := { Lat := 100, Lng := 5 }, tags := [['Q']] } =
      ({ location := { Lat := 100, Lng := 5 }, tags := [] }, some .pointOutsideBox) := by
    with_unfolding_all rfl
  exact ⟨h, c9_amended_error_leaves_partial_fresh_tags _ _ _ h⟩

/-! ### The neighbor navigator: carry arithmetic on tag characters -/

theorem mem_hexChars_elim {c : Char} (h : c ∈ hexChars) :
    parseHexDigit c = some (hexDigit c) ∧ hexDigit c < 16 ∧
      CODES (hexDigit c / 4) (hexDigit c % 4) = c := by
  fin_cases h <;> exact ⟨rfl, by decide, rfl⟩

theorem codes_mem_hexChars {i j : Nat} (hi : i < 4) (hj : j < 4) :
    CODES i j ∈ hexChars := by
  interval_cases i <;> interval_cases j <;> decide

theorem hexDigit_codes {i j : Nat} (hi : i < 4) (hj : j < 4) :
    hexDigit (CODES i j) = 4 * i + j := by
  interval_cases i <;> interval_cases j <;> decide

theorem hexChar_inj {c c' : Char} (hc : c ∈ hexChars) (hc' : c' ∈ hexChars)
    (h : hexDigit c = hexDigit c') : c = c' := by
  fin_cases hc <;> fin_cases hc' <;> revert h <;> decide

/-- One `GetEastBoxTag` step on the reversed tag: validity and length are
preserved, the column index gains one, the row index is unchanged. -/
theorem goEastRev_ok :
    ∀ {rt rt' : List Char}, (∀ c ∈ rt, c ∈ hexChars) → goEastRev rt = .ok rt' →
      (∀ c ∈ rt', c ∈ hexChars) ∧ rt'.length = rt.length ∧
        revRow rt' = revRow rt ∧ revCol rt' = revCol rt + 1 := by
  intro rt
  induction rt with
  | nil => intro rt' _ h; cases h
  | cons c rest ih =>
    intro rt' hv h
    have hc : c ∈ hexChars := hv c (List.mem_cons_self c rest)
    obtain ⟨hparse, hlt16, hcode⟩ := mem_hexChars_elim hc
    unfold goEastRev at h
    rw [hparse] at h
    simp only at h
    by_cases hcarry : hexDigit c % 4 + 1 ≥ 4
    · rw [if_pos hcarry] at h
      have hmod : hexDigit c % 4 = 3 := by omega
      match hrec : goEastRev rest with
      | .error e => rw [hrec] at h; cases h
      | .ok pre =>
        rw [hrec] at h
        cases h
        obtain ⟨hvpre, hlpre, hrpre, hcpre⟩ :=
          ih (fun x hx => hv x (List.mem_cons_of_mem c hx)) hrec
        have hval : hexDigit c + 1 - 4 = hexDigit c - 3 := by omega
        have hd4 : (hexDigit c + 1 - 4) / 4 = hexDigit c / 4 := by omega
        have hm4 : (hexDigit c + 1 - 4) % 4 = 0 := by omega
        have hnewdig : hexDigit (CODES ((hexDigit c + 1 - 4) / 4) ((hexDigit c + 1 - 4) % 4)) =
            4 * ((hexDigit c + 1 - 4) / 4) + (hexDigit c + 1 - 4) % 4 :=
          hexDigit_codes (by omega) (by omega)
        refine ⟨?_, by simpa using hlpre, ?_, ?_⟩
        · intro x hx
          rcases List.mem_cons.mp hx with hx | hx
          · rw [hx]
            exact codes_mem_hexChars (by omega) (by omega)
          · exact hvpre x hx
        · simp only [revRow, hnewdig]
          rw [hrpre]
          omega
        · simp only [revCol, hnewdig]
          rw [hcpre]
          omega
    · rw [if_neg hcarry] at h
      cases h
      have hle : hexDigit c % 4 ≤ 2 := by omega
      have hlt : hexDigit c + 1 < 16 := by omega
      have hnewdig : hexDigit (CODES ((hexDigit c + 1) / 4) ((hexDigit c + 1) % 4)) =
          4 * ((hexDigit c + 1) / 4) + (hexDigit c + 1) % 4 :=
        hexDigit_codes (by omega) (by omega)
      refine ⟨?_, by simp, ?_, ?_⟩
      · intro x hx
        rcases List.mem_cons.mp hx with hx | hx
        · rw [hx]
          exact codes_mem_hexChars (by omega) (by omega)
        · exact hv x (List.mem_cons_of_mem c hx)
      · simp only [revRow, hnewdig]
        omega
      · simp only [revCol, hnewdig]
        omega

/-- One `GetNorthBoxTag` step on the reversed tag: validity and length are
preserved, the row index gains one, the column index is unchanged. -/
theorem goNorthRev_ok :
    ∀ {rt rt' : List Char}, (∀ c ∈ rt, c ∈ hexChars) → goNorthRev rt = .ok rt' →
      (∀ c ∈ rt', c ∈ hexChars) ∧ rt'.length = rt.length ∧
        revRow rt' = revRow rt + 1 ∧ revCol rt' = revCol rt := by
  intro rt
  induction rt with
  | nil => intro rt' _ h; cases h
  | cons c rest ih =>
    intro rt' hv h
    have hc : c ∈ hexChars := hv c (List.mem_cons_self c rest)
    obtain ⟨hparse, hlt16, hcode⟩ := mem_hexChars_elim hc
    unfold goNorthRev at h
    rw [hparse] at h
    simp only at h
    by_cases hcarry : hexDigit c + 4 ≥ 16
    · rw [if_pos hcarry] at h
      have hdiv : hexDigit c / 4 = 3 := by omega
      match hrec : goNorthRev rest with
      | .error e => rw [hrec] at h; cases h
      | .ok pre =>
        rw [hrec] at h
        cases h
        obtain ⟨hvpre, hlpre, hrpre, hcpre⟩ :=
          ih (fun x hx => hv x (List.mem_cons_of_mem c hx)) hrec
        have hnewdig : hexDigit (CODES ((hexDigit c + 4 - 16) / 4) ((hexDigit c + 4 - 16) % 4)) =
            4 * ((hexDigit c + 4 - 16) / 4) + (hexDigit c + 4 - 16) % 4 :=
          hexDigit_codes (by omega) (by omega)
        refine ⟨?_, by simpa using hlpre, ?_, ?_⟩
        · intro x hx
          rcases List.mem_cons.mp hx with hx | hx
          · rw [hx]
            exact codes_mem_hexChars (by omega) (by omega)
          · exact hvpre x hx
        · simp only [revRow, hnewdig]
          rw [hrpre]
          omega
        · simp only [revCol, hnewdig]
          rw [hcpre]
          omega
    · rw [if_neg hcarry] at h
      cases h
      have hnewdig : hexDigit (CODES ((hexDigit c + 4) / 4) ((hexDigit c + 4) % 4)) =
          4 * ((hexDigit c + 4) / 4) + (hexDigit c + 4) % 4 :=
        hexDigit_codes (by omega) (by omega)
      refine ⟨?_, by simp, ?_, ?_⟩
      · intro x hx
        rcases List.mem_cons.mp hx with hx | hx
        · rw [hx]
          exact codes_mem_hexChars (by omega) (by omega)
        · exact hv x (List.mem_cons_of_mem c hx)
      · simp only [revRow, hnewdig]
        omega
      · simp only [revCol, hnewdig]
        omega

theorem validTag_reverse {t : List Char} (hv : ValidTag t) :
    ∀ c ∈ t.reverse, c ∈ hexChars := by
  intro c hc
  exact hv c (List.mem_reverse.mp hc)

theorem validTag_of_reverse {t : List Char} (hv : ∀ c ∈ t.reverse, c ∈ hexChars) :
    ValidTag t := by
  intro c hc
  exact hv c (List.mem_reverse.mpr hc)

theorem GetEastBoxTag_ok_rev {t u : List Char} (h : GetEastBoxTag t = .ok u) :
    goEastRev t.reverse = .ok u.reverse := by
  unfold GetEastBoxTag at h
  match hrec : goEastRev t.reverse with
  | .error e => rw [hrec] at h; cases h
  | .ok r =>
    rw [hrec] at h
    cases h
    rw [List.reverse_reverse]

theorem GetNorthBoxTag_ok_rev {t u : List Char} (h : GetNorthBoxTag t = .ok u) :
    goNorthRev t.reverse = .ok u.reverse := by
  unfold GetNorthBoxTag at h
  match hrec : goNorthRev t.reverse with
  | .error e => rw [hrec] at h; cases h
  | .ok r =>
    rw [hrec] at h
    cases h
    rw [List.reverse_reverse]

/-- One `GetEastBoxTag` step: the named cell moves one column east, same
row, same depth. -/
theorem east_ok {t u : List Char} (hv : ValidTag t) (h : GetEastBoxTag t = .ok u) :
    ValidTag u ∧ u.length = t.length ∧ tagRow u = tagRow t ∧
      tagCol u = tagCol t + 1 := by
  obtain ⟨hvu, hlen, hrow, hcol⟩ := goEastRev_ok (validTag_reverse hv) (GetEastBoxTag_ok_rev h)
  refine ⟨validTag_of_reverse hvu, ?_, hrow, hcol⟩
  simpa using hlen

/-- One `GetNorthBoxTag` step: the named cell moves one row north, same
column, same depth. -/
theorem north_ok {t u : List Char} (hv : ValidTag t) (h : GetNorthBoxTag t = .ok u) :
    ValidTag u ∧ u.length = t.length ∧ tagRow u = tagRow t + 1 ∧
      tagCol u = tagCol t := by
  obtain ⟨hvu, hlen, hrow, hcol⟩ := goNorthRev_ok (validTag_reverse hv) (GetNorthBoxTag_ok_rev h)
  refine ⟨validTag_of_reverse hvu, ?_, hrow, hcol⟩
  simpa using hlen

/-- The head of a non-empty valid reversed tag is determined by the row and
column values modulo 4. -/
theorem revHead_eq {c : Char} {rest : List Char} (hc : c ∈ hexChars) :
    c = CODES (revRow (c :: rest) % 4) (revCol (c :: rest) % 4) := by
  obtain ⟨_, hlt16, hcode⟩ := mem_hexChars_elim hc
  have h1 : revRow (c :: rest) % 4 = hexDigit c / 4 := by
    simp only [revRow]
    omega
  have h2 : revCol (c :: rest) % 4 = hexDigit c % 4 := by
    simp only [revCol]
    omega
  rw [h1, h2, hcode]

/-- C8: for every cell tag of length 1..10 on which four successive
applications of `GetEastBoxTag` succeed, the result has the same length and
the same last character as the original tag (it returns to the same column,
and the same cell, within its immediate parent; only the prefix above the
last character may have changed). -/
theorem c8_east_four_returns_to_column {t t1 t2 t3 t4 : List Char}
    (hv : ValidTag t) (hlen1 : 1 ≤ t.length) (hlen10 : t.length ≤ 10)
    (h1 : GetEastBoxTag t = .ok t1) (h2 : GetEastBoxTag t1 = .ok t2)
    (h3 : GetEastBoxTag t2 = .ok t3) (h4 : GetEastBoxTag t3 = .ok t4) :
    t4.length = t.length ∧ t4.getLast? = t.getLast? := by
  obtain ⟨hv1, hl1, hr1, hc1⟩ := east_ok hv h1
  obtain ⟨hv2, hl2, hr2, hc2⟩ := east_ok hv1 h2
  obtain ⟨hv3, hl3, hr3, hc3⟩ := east_ok hv2 h3
  obtain ⟨hv4, hl4, hr4, hc4⟩ := east_ok hv3 h4
  have hlen : t4.length = t.length := by omega
  refine ⟨hlen, ?_⟩
  have hne : t ≠ [] := by
    intro he
    rw [he] at hlen1
    simp at hlen1
  have hne4 : t4 ≠ [] := by
    intro he
    rw [he] at hlen
    have : t.length = 0 := hlen.symm
    omega
  match ht : t.reverse, htv : t4.reverse with
  | [], _ => exact absurd (by simpa using congrArg List.length ht) (by simpa using hne)
  | _ :: _, [] => exact absurd (by simpa using congrArg List.length htv) (by simpa using hne4)
  | c :: rest, c4 :: rest4 =>
    have hcmem : c ∈ hexChars := validTag_reverse hv c (by rw [ht]; exact List.mem_cons_self _ _)
    have hcmem4 : c4 ∈ hexChars :=
      validTag_reverse hv4 c4 (by rw [htv]; exact List.mem_cons_self _ _)
    have hrow : revRow (c4 :: rest4) = revRow (c :: rest) := by
      rw [← ht, ← htv]
      show tagRow t4 = tagRow t
      omega
    have hcol : revCol (c4 :: rest4) = revCol (c :: rest) + 4 := by
      rw [← ht, ← htv]
      show tagCol t4 = tagCol t + 4
      omega
    have hhead : c4 = c := by
      rw [revHead_eq hcmem4, revHead_eq hcmem, hrow, hcol]
      have : (revCol (c :: rest) + 4) % 4 = revCol (c :: rest) % 4 := by omega
      rw [this]
    have hgl : t.getLast? = some c := by
      rw [← List.head?_reverse, ht]
      rfl
    have hgl4 : t4.getLast? = some c4 := by
      rw [← List.head?_reverse, htv]
      rfl
    rw [hgl, hgl4, hhead]

/-- Witness for C8: four east steps from the tag `00`. -/
theorem c8_east_four_returns_to_column_witness :
    (ValidTag ['0', '0'] ∧ 1 ≤ (['0', '0'] : List Char).length ∧
      (['0', '0'] : List Char).length ≤ 10 ∧
      GetEastBoxTag ['0', '0'] = .ok ['0', '1'] ∧
      GetEastBoxTag ['0', '1'] = .ok ['0', '2'] ∧
      GetEastBoxTag ['0', '2'] = .ok ['0', '3'] ∧
      GetEastBoxTag ['0', '3'] = .ok ['1', '0']) ∧
    ((['1', '0'] : List Char).length = (['0', '0'] : List Char).length ∧
      (['1', '0'] : List Char).getLast? = (['0', '0'] : List Char).getLast?) :=
  ⟨⟨by decide, by decide, by decide, by decide, by decide, by decide, by decide⟩,
    @c8_east_four_returns_to_column ['0', '0'] ['0', '1'] ['0', '2'] ['0', '3'] ['1', '0']
      (by decide) (by decide) (by decide) (by decide) (by decide) (by decide) (by decide)⟩

/-! ### Grid geometry of cells named by tags -/

/-- Latitude span of a depth-`n` cell. -/
def latSpan (n : Nat) : ℚ := (MAXLAT - MINLAT) / 4 ^ n

/-- Longitude span of a depth-`n` cell. -/
def lngSpan (n : Nat) : ℚ := (MAXLNG - MINLNG) / 4 ^ n

theorem latSpan_pos (n : Nat) : 0 < latSpan n := by
  unfold latSpan MAXLAT MINLAT
  positivity

theorem lngSpan_pos (n : Nat) : 0 < lngSpan n := by
  unfold lngSpan MAXLNG MINLNG
  positivity

theorem latSpan_succ (n : Nat) : latSpan (n + 1) = latSpan n / 4 := by
  unfold latSpan
  rw [pow_succ, div_div]

theorem lngSpan_succ (n : Nat) : lngSpan (n + 1) = lngSpan n / 4 := by
  unfold lngSpan
  rw [pow_succ, div_div]

theorem tagRow_snoc (xs : List Char) (c : Char) :
    tagRow (xs ++ [c]) = 4 * tagRow xs + hexDigit c / 4 := by
  simp only [tagRow, List.reverse_append, List.reverse_cons, List.reverse_nil,
    List.nil_append, List.cons_append, revRow]
  omega

theorem tagCol_snoc (xs : List Char) (c : Char) :
    tagCol (xs ++ [c]) = 4 * tagCol xs + hexDigit c % 4 := by
  simp only [tagCol, List.reverse_append, List.reverse_cons, List.reverse_nil,
    List.nil_append, List.cons_append, revCol]
  omega

theorem revRow_lt {rt : List Char} (hv : ∀ c ∈ rt, c ∈ hexChars) :
    revRow rt < 4 ^ rt.length := by
  induction rt with
  | nil => simp [revRow]
  | cons c rest ih =>
    have hc := (mem_hexChars_elim (hv c (List.mem_cons_self c rest))).2.1
    have hr := ih (fun x hx => hv x (List.mem_cons_of_mem c hx))
    simp only [revRow, List.length_cons, pow_succ]
    omega

theorem revCol_lt {rt : List Char} (hv : ∀ c ∈ rt, c ∈ hexChars) :
    revCol rt < 4 ^ rt.length := by
  induction rt with
  | nil => simp [revCol]
  | cons c rest ih =>
    have hc := (mem_hexChars_elim (hv c (List.mem_cons_self c rest))).2.1
    have hr := ih (fun x hx => hv x (List.mem_cons_of_mem c hx))
    simp only [revCol, List.length_cons, pow_succ]
    omega

theorem tagRow_lt {t : List Char} (hv : ValidTag t) : tagRow t < 4 ^ t.length := by
  have := revRow_lt (validTag_reverse hv)
  simpa [tagRow] using this

theorem tagCol_lt {t : List Char} (hv : ValidTag t) : tagCol t < 4 ^ t.length := by
  have := revCol_lt (validTag_reverse hv)
  simpa [tagCol] using this

/-- Two valid reversed tags of the same length with the same row and column
values are equal. -/
theorem rev_inj :
    ∀ {rt ru : List Char}, (∀ c ∈ rt, c ∈ hexChars) → (∀ c ∈ ru, c ∈ hexChars) →
      rt.length = ru.length → revRow rt = revRow ru → revCol rt = revCol ru →
      rt = ru := by
  intro rt
  induction rt with
  | nil =>
    intro ru _ _ hlen _ _
    have : ru = [] := by
      cases ru with
      | nil => rfl
      | cons x xs => simp at hlen
    rw [this]
  | cons c rest ih =>
    intro ru hv hv' hlen hrow hcol
    match ru with
    | [] => simp at hlen
    | c' :: rest' =>
      have hc := (mem_hexChars_elim (hv c (List.mem_cons_self c rest))).2.1
      have hc' := (mem_hexChars_elim (hv' c' (List.mem_cons_self c' rest'))).2.1
      simp only [revRow] at hrow
      simp only [revCol] at hcol
      have hd4 : hexDigit c / 4 = hexDigit c' / 4 := by omega
      have hrr : revRow rest = revRow rest' := by omega
      have hm4 : hexDigit c % 4 = hexDigit c' % 4 := by omega
      have hcc : revCol rest = revCol rest' := by omega
      have hchar : c = c' :=
        hexChar_inj (hv c (List.mem_cons_self c rest))
          (hv' c' (List.mem_cons_self c' rest')) (by omega)
      have hrest : rest = rest' :=
        ih (fun x hx => hv x (List.mem_cons_of_mem c hx))
          (fun x hx => hv' x (List.mem_cons_of_mem c' hx))
          (by simpa using hlen) hrr hcc
      rw [hchar, hrest]

/-- Two valid tags of the same length naming the same row and column are the
same tag. -/
theorem tag_inj {t u : List Char} (hvt : ValidTag t) (hvu : ValidTag u)
    (hlen : t.length = u.length) (hr : tagRow t = tagRow u)
    (hc : tagCol t = tagCol u) : t = u := by
  have := rev_inj (validTag_reverse hvt) (validTag_reverse hvu)
    (by simpa using hlen) hr hc
  exact List.reverse_inj.mp this

theorem cellBox_append (t : List Char) (c : Char) :
    cellBox (t ++ [c]) = subBox (cellBox t) (hexDigit c / 4) (hexDigit c % 4) := by
  simp [cellBox, List.foldl_append]

/-- The rectangle named by a valid tag, in closed form: the cell at row
`tagRow t` and column `tagCol t` of the depth-`t.length` grid. -/
theorem cellBox_corners {t : List Char} (hv : ValidTag t) :
    cellBox t =
      { SW := { Lat := MINLAT + (tagRow t : ℚ) * latSpan t.length
              , Lng := MINLNG + (tagCol t : ℚ) * lngSpan t.length }
      , NE := { Lat := MINLAT + ((tagRow t : ℚ) + 1) * latSpan t.length
              , Lng := MINLNG + ((tagCol t : ℚ) + 1) * lngSpan t.length } } := by
  induction t using List.reverseRecOn with
  | nil =>
    simp only [cellBox, List.foldl_nil, tagRow, tagCol, List.reverse_nil, revRow, revCol,
      List.length_nil]
    unfold worldBox latSpan lngSpan MINLAT MAXLAT MINLNG MAXLNG
    norm_num
  | append_singleton xs c ih =>
    have hvxs : ValidTag xs := fun x hx => hv x (List.mem_append_left _ hx)
    have hcmem : c ∈ hexChars := hv c (List.mem_append_right _ (List.mem_cons_self c []))
    have hd16 := (mem_hexChars_elim hcmem).2.1
    rw [cellBox_append, ih hvxs]
    have hlatspace : latSpacing
        { SW := { Lat := MINLAT + (tagRow xs : ℚ) * latSpan xs.length
                , Lng := MINLNG + (tagCol xs : ℚ) * lngSpan xs.length }
        , NE := { Lat := MINLAT + ((tagRow xs : ℚ) + 1) * latSpan xs.length
                , Lng := MINLNG + ((tagCol xs : ℚ) + 1) * lngSpan xs.length } } =
        latSpan (xs.length + 1) := by
      unfold latSpacing
      simp only
      have h1 : (MINLAT + ((tagRow xs : ℚ) + 1) * latSpan xs.length) -
          (MINLAT + (tagRow xs : ℚ) * latSpan xs.length) = latSpan xs.length := by
        ring
      rw [h1, abs_of_nonneg (latSpan_pos xs.length).le, latSpan_succ]
    have hlngspace : lngSpacing
        { SW := { Lat := MINLAT + (tagRow xs : ℚ) * latSpan xs.length
                , Lng := MINLNG + (tagCol xs : ℚ) * lngSpan xs.length }
        , NE := { Lat := MINLAT + ((tagRow xs : ℚ) + 1) * latSpan xs.length
                , Lng := MINLNG + ((tagCol xs : ℚ) + 1) * lngSpan xs.length } } =
        lngSpan (xs.length + 1) := by
      unfold lngSpacing
      simp only
      have h1 : (MINLNG + ((tagCol xs : ℚ) + 1) * lngSpan xs.length) -
          (MINLNG + (tagCol xs : ℚ) * lngSpan xs.length) = lngSpan xs.length := by
        ring
      rw [h1, abs_of_nonneg (lngSpan_pos xs.length).le, lngSpan_succ]
    unfold subBox
    rw [hlatspace, hlngspace]
    have hrow := tagRow_snoc xs c
    have hcol := tagCol_snoc xs c
    have hlat4 : latSpan xs.length = 4 * latSpan (xs.length + 1) := by
      rw [latSpan_succ]
      ring
    have hlng4 : lngSpan xs.length = 4 * lngSpan (xs.length + 1) := by
      rw [lngSpan_succ]
      ring
    simp only [LatLngBounds.mk.injEq, LatLng.mk.injEq, List.length_append,
      List.length_cons, List.length_nil, Nat.zero_add]
    refine ⟨⟨?_, ?_⟩, ?_, ?_⟩ <;>
      simp only [hrow, hcol, hlat4, hlng4] <;> push_cast <;> ring

theorem latSpacing_cellBox {t : List Char} (hv : ValidTag t) :
    latSpacing (cellBox t) = latSpan (t.length + 1) := by
  rw [cellBox_corners hv]
  unfold latSpacing
  simp only
  have h1 : (MINLAT + ((tagRow t : ℚ) + 1) * latSpan t.length) -
      (MINLAT + (tagRow t : ℚ) * latSpan t.length) = latSpan t.length := by
    ring
  rw [h1, abs_of_nonneg (latSpan_pos t.length).le, latSpan_succ]

theorem lngSpacing_cellBox {t : List Char} (hv : ValidTag t) :
    lngSpacing (cellBox t) = lngSpan (t.length + 1) := by
  rw [cellBox_corners hv]
  unfold lngSpacing
  simp only
  have h1 : (MINLNG + ((tagCol t : ℚ) + 1) * lngSpan t.length) -
      (MINLNG + (tagCol t : ℚ) * lngSpan t.length) = lngSpan t.length := by
    ring
  rw [h1, abs_of_nonneg (lngSpan_pos t.length).le, lngSpan_succ]

/-! ### The geocoder computes the least covering row and column -/

/-- The depth-`n` row index the geocoder assigns to a latitude: the least
row whose band (inclusive upper edge) reaches the latitude. -/
def RowSpec (lat : ℚ) (n r : Nat) : Prop :=
  r < 4 ^ n ∧ lat ≤ MINLAT + ((r : ℚ) + 1) * latSpan n ∧
    (r = 0 ∨ MINLAT + (r : ℚ) * latSpan n < lat)

/-- The depth-`n` column index the geocoder assigns to a longitude. -/
def ColSpec (lng : ℚ) (n c : Nat) : Prop :=
  c < 4 ^ n ∧ lng ≤ MINLNG + ((c : ℚ) + 1) * lngSpan n ∧
    (c = 0 ∨ MINLNG + (c : ℚ) * lngSpan n < lng)

theorem rowSpec_lt_absurd {lat : ℚ} {n r r' : Nat}
    (h1 : RowSpec lat n r) (h2 : RowSpec lat n r') (hlt : r < r') : False := by
  obtain ⟨_, hup, _⟩ := h1
  obtain ⟨_, _, hlow⟩ := h2
  rcases hlow with h0 | hstrict
  · omega
  · have hcast : ((r : ℚ) + 1) ≤ (r' : ℚ) := by
      have : (r : ℚ) + 1 = ((r + 1 : Nat) : ℚ) := by push_cast; ring
      rw [this]
      exact_mod_cast hlt
    have := mul_le_mul_of_nonneg_right hcast (latSpan_pos n).le
    linarith

theorem rowSpec_unique {lat : ℚ} {n r r' : Nat}
    (h1 : RowSpec lat n r) (h2 : RowSpec lat n r') : r = r' := by
  rcases lt_trichotomy r r' with h | h | h
  · exact absurd (rowSpec_lt_absurd h1 h2 h) not_false
  · exact h
  · exact absurd (rowSpec_lt_absurd h2 h1 h) not_false

theorem rowSpec_mono {lat lat' : ℚ} {n r r' : Nat}
    (h1 : RowSpec lat n r) (h2 : RowSpec lat' n r') (hle : lat ≤ lat') : r ≤ r' := by
  by_contra hgt
  push_neg at hgt
  obtain ⟨_, _, hlow⟩ := h1
  obtain ⟨_, hup, _⟩ := h2
  rcases hlow with h0 | hstrict
  · omega
  · have hcast : ((r' : ℚ) + 1) ≤ (r : ℚ) := by
      have : (r' : ℚ) + 1 = ((r' + 1 : Nat) : ℚ) := by push_cast; ring
      rw [this]
      exact_mod_cast hgt
    have := mul_le_mul_of_nonneg_right hcast (latSpan_pos n).le
    linarith

theorem colSpec_lt_absurd {lng : ℚ} {n c c' : Nat}
    (h1 : ColSpec lng n c) (h2 : ColSpec lng n c') (hlt : c < c') : False := by
  obtain ⟨_, hup, _⟩ := h1
  obtain ⟨_, _, hlow⟩ := h2
  rcases hlow with h0 | hstrict
  · omega
  · have hcast : ((c : ℚ) + 1) ≤ (c' : ℚ) := by
      have : (c : ℚ) + 1 = ((c + 1 : Nat) : ℚ) := by push_cast; ring
      rw [this]
      exact_mod_cast hlt
    have := mul_le_mul_of_nonneg_right hcast (lngSpan_pos n).le
    linarith

theorem colSpec_unique {lng : ℚ} {n c c' : Nat}
    (h1 : ColSpec lng n c) (h2 : ColSpec lng n c') : c = c' := by
  rcases lt_trichotomy c c' with h | h | h
  · exact absurd (colSpec_lt_absurd h1 h2 h) not_false
  · exact h
  · exact absurd (colSpec_lt_absurd h2 h1 h) not_false

theorem colSpec_mono {lng lng' : ℚ} {n c c' : Nat}
    (h1 : ColSpec lng n c) (h2 : ColSpec lng' n c') (hle : lng ≤ lng') : c ≤ c' := by
  by_contra hgt
  push_neg at hgt
  obtain ⟨_, _, hlow⟩ := h1
  obtain ⟨_, hup, _⟩ := h2
  rcases hlow with h0 | hstrict
  · omega
  · have hcast : ((c' : ℚ) + 1) ≤ (c : ℚ) := by
      have : (c' : ℚ) + 1 = ((c' + 1 : Nat) : ℚ) := by push_cast; ring
      rw [this]
      exact_mod_cast hgt
    have := mul_le_mul_of_nonneg_right hcast (lngSpan_pos n).le
    linarith

/-- Invariant a corner cursor maintains through the lock-step descent: the
hash is a valid tag naming the box the cursor tracks, and its row/column
are the least indices covering the corner point. -/
structure CornerInv (p : LatLng) (g : Geohasher) : Prop where
  point_eq : g.Point = p
  valid : ValidTag g.hash
  box_eq : g.Box = cellBox g.hash
  row_spec : RowSpec p.Lat g.hash.length (tagRow g.hash)
  col_spec : ColSpec p.Lng g.hash.length (tagCol g.hash)

theorem cornerInv_init {p : LatLng} (h1 : MINLAT ≤ p.Lat) (h2 : p.Lat ≤ MAXLAT)
    (h3 : MINLNG ≤ p.Lng) (h4 : p.Lng ≤ MAXLNG) :
    CornerInv p { Point := p, Box := worldBox, hash := [] } := by
  refine ⟨rfl, (by intro c hc; cases hc), ?_, ?_, ?_⟩
  · simp [cellBox, worldBox]
  · unfold RowSpec
    simp only [tagRow, List.reverse_nil, revRow, List.length_nil, pow_zero,
      Nat.cast_zero]
    refine ⟨by norm_num, ?_, Or.inl (by trivial)⟩
    unfold latSpan MINLAT MAXLAT at *
    norm_num
    linarith
  · unfold ColSpec
    simp only [tagCol, List.reverse_nil, revCol, List.length_nil, pow_zero,
      Nat.cast_zero]
    refine ⟨by norm_num, ?_, Or.inl (by trivial)⟩
    unfold lngSpan MINLNG MAXLNG at *
    norm_num
    linarith
/-- A successful `Descend` preserves the corner invariant and deepens the
hash by one character. -/
theorem cornerInv_descend {p : LatLng} {g g' : Geohasher}
    (hci : CornerInv p g) (h : Descend g = .ok g') :
    CornerInv p g' ∧ g'.hash.length = g.hash.length + 1 := by
  obtain ⟨hpt, hv, hbox, hrs, hcs⟩ := hci
  subst hpt
  obtain ⟨hw, i, j, hf, hhash, hbox', hpt'⟩ := descend_ok_elim h
  obtain ⟨hi4, hsome, hrnone⟩ := findSubBox_eq_some hf
  obtain ⟨hj4, hwin, hjmin⟩ := scanRow_eq_some hsome
  have hd := hexDigit_codes hi4 hj4
  have hdd4 : hexDigit (CODES i j) / 4 = i := by omega
  have hdm4 : hexDigit (CODES i j) % 4 = j := by omega
  have hlen : g'.hash.length = g.hash.length + 1 := by
    simp [hhash]
  set n := g.hash.length with hn
  set R := tagRow g.hash with hR
  set C := tagCol g.hash with hC
  have hrownew : tagRow g'.hash = 4 * R + i := by
    rw [hhash, tagRow_snoc, hdd4]
  have hcolnew : tagCol g'.hash = 4 * C + j := by
    rw [hhash, tagCol_snoc, hdm4]
  have hboxnew : g'.Box = cellBox g'.hash := by
    rw [hbox', hhash, cellBox_append, hdd4, hdm4, hbox]
  have hvnew : ValidTag g'.hash := by
    rw [hhash]
    intro x hx
    rcases List.mem_append.mp hx with hx | hx
    · exact hv x hx
    · rcases List.mem_singleton.mp hx with rfl
      exact codes_mem_hexChars hi4 hj4
  -- Band inequalities of the chosen sub-box, using the closed-form corners
  -- of the current cell.
  have hwin' := hwin
  rw [hbox, within_subBox_iff, latSpacing_cellBox hv, lngSpacing_cellBox hv,
    cellBox_corners hv] at hwin'
  simp only at hwin'
  obtain ⟨⟨hlatlow, hlatup⟩, hlnglow, hlngup⟩ := hwin'
  have hs4 : latSpan n = 4 * latSpan (n + 1) := by
    rw [latSpan_succ]
    ring
  have hw4 : lngSpan n = 4 * lngSpan (n + 1) := by
    rw [lngSpan_succ]
    ring
  have hrs' : RowSpec g.Point.Lat (n + 1) (4 * R + i) := by
    obtain ⟨hRlt, hRup, hRlow⟩ := hrs
    refine ⟨by rw [pow_succ]; omega, ?_, ?_⟩
    · have heq : MINLAT + (((4 * R + i : Nat) : ℚ) + 1) * latSpan (n + 1) =
          MINLAT + (R : ℚ) * latSpan n + ((i : ℚ) + 1) * latSpan (n + 1) := by
        rw [hs4]
        push_cast
        ring
      rw [heq]
      exact hlatup
    · rcases Nat.eq_zero_or_pos i with hi0 | hipos
      · subst hi0
        rcases hRlow with hR0 | hRstrict
        · exact Or.inl (by omega)
        · refine Or.inr ?_
          have heq : MINLAT + ((4 * R + 0 : Nat) : ℚ) * latSpan (n + 1) =
              MINLAT + (R : ℚ) * latSpan n := by
            rw [hs4]
            push_cast
            ring
          rw [heq]
          exact hRstrict
      · refine Or.inr ?_
        have hfail := scanRow_eq_none (hrnone (i - 1) (by omega)) j hj4
        have hmono : MINLAT + (R : ℚ) * latSpan n + ((i - 1 : Nat) : ℚ) * latSpan (n + 1) ≤
            MINLAT + (R : ℚ) * latSpan n + (i : ℚ) * latSpan (n + 1) := by
          have hc1 : ((i - 1 : Nat) : ℚ) ≤ (i : ℚ) := by
            exact_mod_cast Nat.sub_le i 1
          nlinarith [latSpan_pos (n + 1)]
        have hup' : ¬(g.Point.Lat ≤ MINLAT + (R : ℚ) * latSpan n +
            (((i - 1 : Nat) : ℚ) + 1) * latSpan (n + 1)) := by
          intro hup
          have hwithin : Within g.Point (subBox g.Box (i - 1) j) = true := by
            rw [hbox, within_subBox_iff, latSpacing_cellBox hv, lngSpacing_cellBox hv,
              cellBox_corners hv]
            simp only
            exact ⟨⟨le_trans hmono hlatlow, hup⟩, hlnglow, hlngup⟩
          rw [hfail] at hwithin
          cases hwithin
        push_neg at hup'
        have hi1 : ((i - 1 : Nat) : ℚ) + 1 = (i : ℚ) := by
          have hc1 : ((i - 1 : Nat) : ℚ) = (i : ℚ) - 1 := by
            obtain ⟨i2, rfl⟩ : ∃ i2, i = i2 + 1 := ⟨i - 1, by omega⟩
            simp only [Nat.add_sub_cancel]
            push_cast
            ring
          rw [hc1]
          ring
        rw [hi1] at hup'
        have heq : MINLAT + ((4 * R + i : Nat) : ℚ) * latSpan (n + 1) =
            MINLAT + (R : ℚ) * latSpan n + (i : ℚ) * latSpan (n + 1) := by
          rw [hs4]
          push_cast
          ring
        rw [heq]
        exact hup'
  have hcs' : ColSpec g.Point.Lng (n + 1) (4 * C + j) := by
    obtain ⟨hClt, hCup, hClow⟩ := hcs
    refine ⟨by rw [pow_succ]; omega, ?_, ?_⟩
    · have heq : MINLNG + (((4 * C + j : Nat) : ℚ) + 1) * lngSpan (n + 1) =
          MINLNG + (C : ℚ) * lngSpan n + ((j : ℚ) + 1) * lngSpan (n + 1) := by
        rw [hw4]
        push_cast
        ring
      rw [heq]
      exact hlngup
    · rcases Nat.eq_zero_or_pos j with hj0 | hjpos
      · subst hj0
        rcases hClow with hC0 | hCstrict
        · exact Or.inl (by omega)
        · refine Or.inr ?_
          have heq : MINLNG + ((4 * C + 0 : Nat) : ℚ) * lngSpan (n + 1) =
              MINLNG + (C : ℚ) * lngSpan n := by
            rw [hw4]
            push_cast
            ring
          rw [heq]
          exact hCstrict
      · refine Or.inr ?_
        have hfail := hjmin (j - 1) (by omega)
        have hmono : MINLNG + (C : ℚ) * lngSpan n + ((j - 1 : Nat) : ℚ) * lngSpan (n + 1) ≤
            MINLNG + (C : ℚ) * lngSpan n + (j : ℚ) * lngSpan (n + 1) := by
          have hc1 : ((j - 1 : Nat) : ℚ) ≤ (j : ℚ) := by
            exact_mod_cast Nat.sub_le j 1
          nlinarith [lngSpan_pos (n + 1)]
        have hup' : ¬(g.Point.Lng ≤ MINLNG + (C : ℚ) * lngSpan n +
            (((j - 1 : Nat) : ℚ) + 1) * lngSpan (n + 1)) := by
          intro hup
          have hwithin : Within g.Point (subBox g.Box i (j - 1)) = true := by
            rw [hbox, within_subBox_iff, latSpacing_cellBox hv, lngSpacing_cellBox hv,
              cellBox_corners hv]
            simp only
            exact ⟨⟨hlatlow, hlatup⟩, le_trans hmono hlnglow, hup⟩
          rw [hfail] at hwithin
          cases hwithin
        push_neg at hup'
        have hj1 : ((j - 1 : Nat) : ℚ) + 1 = (j : ℚ) := by
          have hc1 : ((j - 1 : Nat) : ℚ) = (j : ℚ) - 1 := by
            obtain ⟨j2, rfl⟩ : ∃ j2, j = j2 + 1 := ⟨j - 1, by omega⟩
            simp only [Nat.add_sub_cancel]
            push_cast
            ring
          rw [hc1]
          ring
        rw [hj1] at hup'
        have heq : MINLNG + ((4 * C + j : Nat) : ℚ) * lngSpan (n + 1) =
            MINLNG + (C : ℚ) * lngSpan n + (j : ℚ) * lngSpan (n + 1) := by
          rw [hw4]
          push_cast
          ring
        rw [heq]
        exact hup'
  refine ⟨⟨hpt', hvnew, hboxnew, ?_, ?_⟩, hlen⟩
  · rw [hlen, hrownew]
    exact hrs'
  · rw [hlen, hcolnew]
    exact hcs'

/-- The lock-step descent preserves the four corner invariants and keeps
the four hashes at a common depth. -/
theorem vbLoop_inv :
    ∀ (fuel : Nat) (vb : LatLngBounds) (sw ne se nw sw' ne' se' nw' : Geohasher),
      vbLoop fuel vb sw ne se nw = .ok (sw', ne', se', nw') →
      CornerInv vb.SW sw → CornerInv vb.NE ne →
      CornerInv { Lat := vb.SW.Lat, Lng := vb.NE.Lng } se →
      CornerInv { Lat := vb.NE.Lat, Lng := vb.SW.Lng } nw →
      ne.hash.length = sw.hash.length → se.hash.length = sw.hash.length →
      nw.hash.length = sw.hash.length →
      CornerInv vb.SW sw' ∧ CornerInv vb.NE ne' ∧
        CornerInv { Lat := vb.SW.Lat, Lng := vb.NE.Lng } se' ∧
        CornerInv { Lat := vb.NE.Lat, Lng := vb.SW.Lng } nw' ∧
        ne'.hash.length = sw'.hash.length ∧ se'.hash.length = sw'.hash.length ∧
        nw'.hash.length = sw'.hash.length := by
  intro fuel
  induction fuel with
  | zero =>
    intro vb sw ne se nw sw' ne' se' nw' h
    simp only [vbLoop] at h
    cases h
  | succ fuel ih =>
    intro vb sw ne se nw sw' ne' se' nw' h hsw hne hse hnw hl1 hl2 hl3
    simp only [vbLoop] at h
    match hc : vbCond vb (GetDepth sw) with
    | .error e => rw [hc] at h; cases h
    | .ok false =>
      rw [hc] at h
      simp only [Except.ok.injEq, Prod.mk.injEq] at h
      obtain ⟨h1, h2, h3, h4⟩ := h
      subst h1
      subst h2
      subst h3
      subst h4
      exact ⟨hsw, hne, hse, hnw, hl1, hl2, hl3⟩
    | .ok true =>
      rw [hc] at h
      match hdsw : Descend sw with
      | .error e => rw [hdsw] at h; cases h
      | .ok sw1 =>
        rw [hdsw] at h
        match hdne : Descend ne with
        | .error e => rw [hdne] at h; cases h
        | .ok ne1 =>
          rw [hdne] at h
          match hdse : Descend se with
          | .error e => rw [hdse] at h; cases h
          | .ok se1 =>
            rw [hdse] at h
            match hdnw : Descend nw with
            | .error e => rw [hdnw] at h; cases h
            | .ok nw1 =>
              rw [hdnw] at h
              obtain ⟨hsw1, hlsw1⟩ := cornerInv_descend hsw hdsw
              obtain ⟨hne1, hlne1⟩ := cornerInv_descend hne hdne
              obtain ⟨hse1, hlse1⟩ := cornerInv_descend hse hdse
              obtain ⟨hnw1, hlnw1⟩ := cornerInv_descend hnw hdnw
              exact ih vb sw1 ne1 se1 nw1 sw' ne' se' nw' h hsw1 hne1 hse1 hnw1
                (by omega) (by omega) (by omega)

/-- A tag the rectangle walk may emit: a valid depth-`n` tag whose row lies
between the SW and NE rows and whose column lies between the SW and NE
columns. -/
def GoodTag (n R0 R1 C0 C1 : Nat) (t : List Char) : Prop :=
  ValidTag t ∧ t.length = n ∧ R0 ≤ tagRow t ∧ tagRow t ≤ R1 ∧
    C0 ≤ tagCol t ∧ tagCol t ≤ C1

/-- Every tag the inner (northward) walk collects lies in the corner
rectangle. -/
theorem northRun_sound {n R0 R1 C0 C1 : Nat} :
    ∀ (fuel : Nat) (cursor endtop : List Char) (acc out : List (List Char)),
      northRun fuel cursor endtop acc = .ok out →
      ValidTag cursor → cursor.length = n →
      R0 ≤ tagRow cursor → tagRow cursor ≤ R1 + 1 →
      C0 ≤ tagCol cursor → tagCol cursor ≤ C1 →
      ValidTag endtop → endtop.length = n → tagRow endtop = R1 + 1 →
      tagCol endtop = tagCol cursor →
      (∀ t ∈ acc, GoodTag n R0 R1 C0 C1 t) →
      ∀ t ∈ out, GoodTag n R0 R1 C0 C1 t := by
  intro fuel
  induction fuel with
  | zero =>
    intro cursor endtop acc out h
    simp only [northRun] at h
    cases h
  | succ fuel ih =>
    intro cursor endtop acc out h hv hlen hr0 hr1 hc0 hc1 hve hle hre hce hacc
    simp only [northRun] at h
    by_cases hstop : cursor = endtop
    · rw [if_pos hstop] at h
      simp only [Except.ok.injEq] at h
      subst h
      exact hacc
    · rw [if_neg hstop] at h
      match hN : GetNorthBoxTag cursor with
      | .error e => rw [hN] at h; cases h
      | .ok cursor2 =>
        rw [hN] at h
        have hrow_ne : tagRow cursor ≠ R1 + 1 := by
          intro hr
          exact hstop (tag_inj hv hve (hlen.trans hle.symm) (by rw [hr, hre])
            hce.symm ▸ rfl)
        have hgood : GoodTag n R0 R1 C0 C1 cursor := ⟨hv, hlen, hr0, by omega, hc0, hc1⟩
        obtain ⟨hv2, hl2, hr2, hc2⟩ := north_ok hv hN
        refine ih cursor2 endtop (acc ++ [cursor]) out h hv2 (hl2.trans hlen)
          (by omega) (by omega) (by omega) (by omega) hve hle hre (by omega) ?_
        intro t ht
        rcases List.mem_append.mp ht with ht | ht
        · exact hacc t ht
        · rcases List.mem_singleton.mp ht with rfl
          exact hgood

/-- Every tag the full rectangle walk collects lies in the corner
rectangle. -/
theorem eastWalk_sound {n R0 R1 C0 C1 : Nat} (hR01 : R0 ≤ R1) :
    ∀ (fuel : Nat) (bot top endbot : List Char) (acc out : List (List Char)),
      eastWalk fuel bot top endbot acc = .ok out →
      ValidTag bot → bot.length = n → tagRow bot = R0 →
      ValidTag top → top.length = n → tagRow top = R1 → tagCol top = tagCol bot →
      C0 ≤ tagCol bot → tagCol bot ≤ C1 + 1 →
      ValidTag endbot → endbot.length = n → tagRow endbot = R0 →
      tagCol endbot = C1 + 1 →
      (∀ t ∈ acc, GoodTag n R0 R1 C0 C1 t) →
      ∀ t ∈ out, GoodTag n R0 R1 C0 C1 t := by
  intro fuel
  induction fuel with
  | zero =>
    intro bot top endbot acc out h
    simp only [eastWalk] at h
    cases h
  | succ fuel ih =>
    intro bot top endbot acc out h hvb hlb hrb hvt hlt hrt hct hcb0 hcb1
      hvE hlE hrE hcE hacc
    simp only [eastWalk] at h
    by_cases hstop : bot = endbot
    · rw [if_pos hstop] at h
      simp only [Except.ok.injEq] at h
      subst h
      exact hacc
    · rw [if_neg hstop] at h
      have hcol_ne : tagCol bot ≠ C1 + 1 := by
        intro hcc
        exact hstop (tag_inj hvb hvE (hlb.trans hlE.symm)
          (by rw [hrb, hrE]) (by rw [hcc, hcE]))
      split at h
      next e hNT => cases h
      next endtop hNT =>
        obtain ⟨hvet, hlet, hret, hcet⟩ := north_ok hvt hNT
        split at h
        next e hNR => cases h
        next acc' hNR =>
          split at h
          next e hEB => cases h
          next bot2 hEB =>
            split at h
            next e hET => cases h
            next top2 hET =>
              obtain ⟨hvb2, hlb2, hrb2, hcb2⟩ := east_ok hvb hEB
              obtain ⟨hvt2, hlt2, hrt2, hct2⟩ := east_ok hvt hET
              have hacc' : ∀ t ∈ acc', GoodTag n R0 R1 C0 C1 t := by
                refine northRun_sound 262146 bot endtop acc acc' hNR hvb hlb
                  (by omega) (by omega) hcb0 (by omega) hvet (hlet.trans hlt)
                  (by omega) (by omega) hacc
              exact ih bot2 top2 endbot acc' out h hvb2 (hlb2.trans hlb) (by omega)
                hvt2 (hlt2.trans hlt) (by omega) (by omega) (by omega) (by omega)
                hvE hlE hrE hcE hacc'

/-- A corner cursor's point lies inside the cell its hash names. -/
theorem cornerInv_within {p : LatLng} {g : Geohasher} (hci : CornerInv p g)
    (h1 : MINLAT ≤ p.Lat) (h3 : MINLNG ≤ p.Lng) :
    Within p (cellBox g.hash) = true := by
  obtain ⟨_, hv, _, ⟨_, hup, hlow⟩, ⟨_, hupc, hlowc⟩⟩ := hci
  rw [cellBox_corners hv, within_iff]
  simp only
  refine ⟨?_, ?_, hup, hupc⟩
  · rcases hlow with h0 | hstrict
    · rw [h0]
      push_cast
      linarith
    · linarith
  · rcases hlowc with h0 | hstrict
    · rw [h0]
      push_cast
      linarith
    · linarith

/-- Any cell of the corner rectangle meets the query bounds. -/
theorem goodTag_intersects {vb : LatLngBounds} {n R0 R1 C0 C1 : Nat}
    (hlat : vb.SW.Lat ≤ vb.NE.Lat) (hlng : vb.SW.Lng ≤ vb.NE.Lng)
    (hlat1 : MINLAT ≤ vb.SW.Lat) (hlng1 : MINLNG ≤ vb.SW.Lng)
    (hR0 : RowSpec vb.SW.Lat n R0) (hR1 : RowSpec vb.NE.Lat n R1)
    (hC0 : ColSpec vb.SW.Lng n C0) (hC1 : ColSpec vb.NE.Lng n C1)
    {t : List Char} (hg : GoodTag n R0 R1 C0 C1 t) :
    Intersects (cellBox t) vb := by
  obtain ⟨hv, hlen, hr0, hr1, hc0, hc1⟩ := hg
  obtain ⟨_, hR0up, _⟩ := hR0
  obtain ⟨_, _, hR1low⟩ := hR1
  obtain ⟨_, hC0up, _⟩ := hC0
  obtain ⟨_, _, hC1low⟩ := hC1
  have hsp := latSpan_pos n
  have hwp := lngSpan_pos n
  have hcastR : (R0 : ℚ) ≤ (tagRow t : ℚ) := by exact_mod_cast hr0
  have hcastR1 : (tagRow t : ℚ) ≤ (R1 : ℚ) := by exact_mod_cast hr1
  have hcastC : (C0 : ℚ) ≤ (tagCol t : ℚ) := by exact_mod_cast hc0
  have hcastC1 : (tagCol t : ℚ) ≤ (C1 : ℚ) := by exact_mod_cast hc1
  refine ⟨{ Lat := max vb.SW.Lat (MINLAT + (tagRow t : ℚ) * latSpan n)
          , Lng := max vb.SW.Lng (MINLNG + (tagCol t : ℚ) * lngSpan n) }, ?_, ?_⟩
  · rw [cellBox_corners hv, within_iff]
    simp only [hlen]
    have hmR : ((R0 : ℚ) + 1) * latSpan n ≤ ((tagRow t : ℚ) + 1) * latSpan n :=
      mul_le_mul_of_nonneg_right (by linarith) hsp.le
    have hmC : ((C0 : ℚ) + 1) * lngSpan n ≤ ((tagCol t : ℚ) + 1) * lngSpan n :=
      mul_le_mul_of_nonneg_right (by linarith) hwp.le
    refine ⟨le_max_right _ _, le_max_right _ _, ?_, ?_⟩
    · exact max_le (by linarith) (by linarith)
    · exact max_le (by linarith) (by linarith)
  · rw [within_iff]
    refine ⟨le_max_left _ _, le_max_left _ _, ?_, ?_⟩
    · refine max_le hlat ?_
      rcases hR1low with h0 | hstrict
      · have hr00 : tagRow t = 0 := by omega
        rw [hr00]
        push_cast
        linarith
      · have hm : (tagRow t : ℚ) * latSpan n ≤ (R1 : ℚ) * latSpan n :=
          mul_le_mul_of_nonneg_right hcastR1 hsp.le
        linarith
    · refine max_le hlng ?_
      rcases hC1low with h0 | hstrict
      · have hc00 : tagCol t = 0 := by omega
        rw [hc00]
        push_cast
        linarith
      · have hm : (tagCol t : ℚ) * lngSpan n ≤ (C1 : ℚ) * lngSpan n :=
          mul_le_mul_of_nonneg_right hcastC1 hwp.le
        linarith

/-- C5: for every valid non-degenerate viewbounds on which
`GeoBoxTagsFromViewBounds` succeeds, every returned tag names a grid cell
whose rectangle intersects the query bounds (no spuriously unrelated tags
are included). -/
theorem c5_region_tags_intersect {vb : LatLngBounds} {tags : List (List Char)}
    (hnd : vb.SW ≠ vb.NE)
    (hlat : vb.SW.Lat ≤ vb.NE.Lat) (hlng : vb.SW.Lng ≤ vb.NE.Lng)
    (hlat1 : MINLAT ≤ vb.SW.Lat) (hlat2 : vb.NE.Lat ≤ MAXLAT)
    (hlng1 : MINLNG ≤ vb.SW.Lng) (hlng2 : vb.NE.Lng ≤ MAXLNG)
    (h : GeoBoxTagsFromViewBounds vb = .ok tags) :
    ∀ t ∈ tags, Intersects (cellBox t) vb := by
  have hswI : CornerInv vb.SW { Point := vb.SW, Box := worldBox, hash := [] } :=
    cornerInv_init hlat1 (le_trans hlat hlat2) hlng1 (le_trans hlng hlng2)
  have hneI : CornerInv vb.NE { Point := vb.NE, Box := worldBox, hash := [] } :=
    cornerInv_init (le_trans hlat1 hlat) hlat2 (le_trans hlng1 hlng) hlng2
  have hseI : CornerInv { Lat := vb.SW.Lat, Lng := vb.NE.Lng }
      { Point := { Lat := vb.SW.Lat, Lng := vb.NE.Lng }, Box := worldBox, hash := [] } :=
    cornerInv_init hlat1 (le_trans hlat hlat2) (le_trans hlng1 hlng) hlng2
  have hnwI : CornerInv { Lat := vb.NE.Lat, Lng := vb.SW.Lng }
      { Point := { Lat := vb.NE.Lat, Lng := vb.SW.Lng }, Box := worldBox, hash := [] } :=
    cornerInv_init (le_trans hlat1 hlat) hlat2 hlng1 (le_trans hlng hlng2)
  unfold GeoBoxTagsFromViewBounds at h
  split at h
  next e hloop => cases h
  next sw ne se nw hloop =>
    obtain ⟨hswC, hneC, hseC, hnwC, hlne, hlse, hlnw⟩ :=
      vbLoop_inv (MAXDEPTH + 2) vb _ _ _ _ sw ne se nw hloop hswI hneI hseI hnwI
        rfl rfl rfl
    split at h
    next heq =>
      simp only [Except.ok.injEq] at h
      subst h
      intro t ht
      rcases List.mem_singleton.mp ht with rfl
      refine ⟨vb.SW, ?_, ?_⟩
      · exact cornerInv_within hswC hlat1 hlng1
      · exact within_iff.mpr ⟨le_refl _, le_refl _, hlat, hlng⟩
    next heq =>
      split at h
      next hmismatch => cases h
      next hmismatch =>
        split at h
        next e hEB => cases h
        next endbot hEB =>
          -- Identify the rows and columns of the four corner tags.
          have hrow_se : tagRow se.hash = tagRow sw.hash := by
            have h1 := hseC.row_spec
            rw [hlse] at h1
            exact rowSpec_unique h1 hswC.row_spec
          have hcol_nw : tagCol nw.hash = tagCol sw.hash := by
            have h1 := hnwC.col_spec
            rw [hlnw] at h1
            exact colSpec_unique h1 hswC.col_spec
          have hnwRS : RowSpec vb.NE.Lat sw.hash.length (tagRow nw.hash) := by
            have h1 := hnwC.row_spec
            rw [hlnw] at h1
            exact h1
          have hseCS : ColSpec vb.NE.Lng sw.hash.length (tagCol se.hash) := by
            have h1 := hseC.col_spec
            rw [hlse] at h1
            exact h1
          have hR01 : tagRow sw.hash ≤ tagRow nw.hash :=
            rowSpec_mono hswC.row_spec hnwRS hlat
          have hC01 : tagCol sw.hash ≤ tagCol se.hash :=
            colSpec_mono hswC.col_spec hseCS hlng
          obtain ⟨hvE, hlenE, hrowE, hcolE⟩ := east_ok hseC.valid hEB
          intro t ht
          have hgood := @eastWalk_sound sw.hash.length (tagRow sw.hash)
            (tagRow nw.hash) (tagCol sw.hash) (tagCol se.hash) hR01
            262146 sw.hash nw.hash endbot [] tags h
            hswC.valid rfl rfl hnwC.valid hlnw rfl hcol_nw (le_refl _)
            (by omega) hvE (hlenE.trans hlse) (hrowE.trans hrow_se) hcolE
            (by intro t' ht'; cases ht') t ht
          exact goodTag_intersects hlat hlng hlat1 hlng1 hswC.row_spec hnwRS
            hswC.col_spec hseCS hgood

/-- Witness for C5: the box from (0, 0) to (10, 10) is tiled by four
depth-2 tags, each of whose cells meets the box. -/
theorem c5_region_tags_intersect_witness :
    (GeoBoxTagsFromViewBounds
        { NE := { Lat := 10, Lng := 10 }, SW := { Lat := 0, Lng := 0 } } =
      .ok [['5', 'F'], ['9', '3'], ['6', 'C'], ['A', '0']]) ∧
    (∀ t ∈ [['5', 'F'], ['9', '3'], ['6', 'C'], ['A', '0']],
      Intersects (cellBox t)
        { NE := { Lat := 10, Lng := 10 }, SW := { Lat := 0, Lng := 0 } }) := by
  have h : GeoBoxTagsFromViewBounds
      { NE := { Lat := 10, Lng := 10 }, SW := { Lat := 0, Lng := 0 } } =
      .ok [['5', 'F'], ['9', '3'], ['6', 'C'], ['A', '0']] := by
    with_unfolding_all rfl
  refine ⟨h, c5_region_tags_intersect ?_ ?_ ?_ ?_ ?_ ?_ ?_ h⟩
  · intro hc
    rw [LatLng.mk.injEq] at hc
    norm_num at hc
  · norm_num
  · norm_num
  · norm_num [MINLAT]
  · norm_num [MAXLAT]
  · norm_num [MINLNG]
  · norm_num [MAXLNG]

end Geostore
